import Mathlib

/-!
Shallow embedding of the wineyard package manager (an-anime-team/wineyard)
and proofs about its specified properties.

Rust machine integers are modelled as `Nat` with explicit `% 2 ^ w` at the
points where the source wraps (`as u16`, `as u32`, `as u64`, `u8` shifts).
Strings are modelled as `List Char`.  Fallible Rust functions return
`Except`/`Option`; functions that can panic return `Panics`.
-/

namespace Wineyard

/-- Result of a Rust computation that may panic: `.panic` models an aborted
process (index out of bounds etc.), `.ret a` a normal return. -/
inductive Panics (α : Type) where
  | panic : Panics α
  | ret (a : α) : Panics α

deriving DecidableEq, Repr

/-- Monadic bind for `Panics`: a panic propagates. -/
def Panics.bind {α β : Type} : Panics α → (α → Panics β) → Panics β
  | .panic, _ => .panic
  | .ret a, f => f a

instance : Monad Panics where
  pure := Panics.ret
  bind := Panics.bind

deriving instance DecidableEq for Except

/-! ## Association-list helpers

`HashMap` values from the source are modelled as association lists in
insertion order; `assocGet` is `HashMap::get`, `assocSet` is
`HashMap::insert` (overwriting an existing key in place). -/

/-- Lookup in an association list (first matching key). -/
def assocGet {α β : Type} [DecidableEq α] : List (α × β) → α → Option β
  | [], _ => none
  | (k, v) :: rest, key => if k = key then some v else assocGet rest key

/-- Insert into an association list, overwriting an existing key in place,
appending otherwise (the observable behaviour of `HashMap::insert`). -/
def assocSet {α β : Type} [DecidableEq α] : List (α × β) → α → β → List (α × β)
  | [], key, v => [(key, v)]
  | (k, w) :: rest, key, v =>
    if k = key then (k, v) :: rest else (k, w) :: assocSet rest key v

/-- Keys of an association list. -/
def assocKeys {α β : Type} (l : List (α × β)) : List α := l.map Prod.fst

/-! ## Big-endian byte encoding of `u64` (`u64::to_be_bytes` / `from_be_bytes`) -/

/-- Big-endian byte list of a natural number, `n` bytes wide
(`u64::to_be_bytes` for `n = 8`). -/
def toBeBytes : Nat → Nat → List Nat
  | 0, _ => []
  | n + 1, h => toBeBytes n (h / 256) ++ [h % 256]

/-- Recompose a big-endian byte list (`u64::from_be_bytes`). -/
def fromBeBytes (l : List Nat) : Nat :=
  l.foldl (fun acc b => acc * 256 + b) 0

/-! ## Base32 (RFC 4648 hex alphabet, lowercase, no padding)

Models `base32::encode`/`base32::decode` with
`Alphabet::Rfc4648HexLower { padding: false }`, the configuration used by
`wineyard-runtime/src/hash.rs`.  Data is a list of byte values. -/

/-- The RFC 4648 hex lowercase alphabet used for encoding. -/
def b32chars : List Char := "0123456789abcdefghijklmnopqrstuv".toList

/-- The uppercase alphabet; decoding uppercases its input first. -/
def b32charsUpper : List Char := "0123456789ABCDEFGHIJKLMNOPQRSTUV".toList

/-- Rust `u8::to_ascii_uppercase`. -/
def toUpperAscii (c : Char) : Char :=
  if 'a' ≤ c ∧ c ≤ 'z' then Char.ofNat (c.toNat - 32) else c

/-- Decoded 5-bit value of one base32 character, `none` if the character is
not in the alphabet (the crate's inverse-table lookup). -/
def b32val (c : Char) : Option Nat :=
  b32charsUpper.findIdx? (fun x => x = toUpperAscii c)

/-- Split a byte list into chunks of 5 (the trailing chunk may be short). -/
def chunks5 : List Nat → List (List Nat)
  | a :: b :: c :: d :: e :: rest => [a, b, c, d, e] :: chunks5 rest
  | [] => []
  | l => [l]

/-- Split a char list into chunks of 8 (the trailing chunk may be short). -/
def chunks8 : List Char → List (List Char)
  | a :: b :: c :: d :: e :: f :: g :: h :: rest =>
    [a, b, c, d, e, f, g, h] :: chunks8 rest
  | [] => []
  | l => [l]

/-- Encode one (zero-padded) chunk of up to 5 bytes into 8 alphabet indices,
mirroring the crate's `u8` shift/or/mask arithmetic (shifts wrap mod 256). -/
def encChunk (chunk : List Nat) : List Nat :=
  let b0 := chunk.getD 0 0
  let b1 := chunk.getD 1 0
  let b2 := chunk.getD 2 0
  let b3 := chunk.getD 3 0
  let b4 := chunk.getD 4 0
  [ b0 >>> 3,
    ((b0 <<< 2) % 256 ||| b1 >>> 6) &&& 31,
    (b1 >>> 1) &&& 31,
    ((b1 <<< 4) % 256 ||| b2 >>> 4) &&& 31,
    ((b2 <<< 1) % 256 ||| b3 >>> 7) &&& 31,
    (b3 >>> 2) &&& 31,
    ((b3 <<< 3) % 256 ||| b4 >>> 5) &&& 31,
    b4 &&& 31 ]

/-- `base32::encode` for the no-padding lowercase hex alphabet: encode full
chunks, then truncate the spare characters of a short final chunk. -/
def base32_encode (data : List Nat) : List Char :=
  let ret := ((chunks5 data).map
    (fun c => (encChunk c).map (fun i => b32chars.getD i ' '))).flatten
  if data.length % 5 = 0 then ret
  else ret.take (ret.length - (8 - (data.length % 5 * 8 + 4) / 5))

/-- Decode one (zero-padded) chunk of up to 8 alphabet indices into 5 bytes,
mirroring the crate's `u8` shift/or arithmetic (shifts wrap mod 256). -/
def decChunk (vals : List Nat) : List Nat :=
  let v0 := vals.getD 0 0
  let v1 := vals.getD 1 0
  let v2 := vals.getD 2 0
  let v3 := vals.getD 3 0
  let v4 := vals.getD 4 0
  let v5 := vals.getD 5 0
  let v6 := vals.getD 6 0
  let v7 := vals.getD 7 0
  [ (v0 <<< 3) % 256 ||| v1 >>> 2,
    ((v1 <<< 6) % 256 ||| (v2 <<< 1) % 256) ||| v3 >>> 4,
    (v3 <<< 4) % 256 ||| v4 >>> 1,
    ((v4 <<< 7) % 256 ||| (v5 <<< 2) % 256) ||| v6 >>> 3,
    (v6 <<< 5) % 256 ||| v7 ]

/-- Number of trailing `=` padding characters (at most `min 6 len`). -/
def b32padCount (s : List Char) : Nat :=
  min (s.reverse.takeWhile (fun c => c = '=')).length (min 6 s.length)

/-- Look up every character of a chunk; `none` if any is invalid. -/
def b32chunkVals (chunk : List Char) : Option (List Nat) :=
  chunk.foldr (fun c acc => do
    let v ← b32val c
    let rest ← acc
    pure (v :: rest)) (some [])

/-- `base32::decode`: reject non-ASCII input, look up every character
(uppercased) in the inverse alphabet, recombine 8 characters into 5 bytes
per chunk and truncate to `unpadded_len * 5 / 8` bytes. -/
def base32_decode (s : List Char) : Option (List Nat) :=
  if s.all (fun c => c.toNat < 128) then
    let outLen := (s.length - b32padCount s) * 5 / 8
    match (chunks8 s).foldr (fun chunk acc => do
      let vals ← b32chunkVals chunk
      let rest ← acc
      pure (decChunk vals ++ rest)) (some []) with
    | some bytes => some (bytes.take outLen)
    | none => none
  else none

/-! ## Hash (`wineyard-runtime/src/hash.rs`)

`Hash` wraps a `u64`, modelled as a `Nat` below `2 ^ 64`. -/

/-- `Hash::to_base32`: base32 of the big-endian bytes. -/
def to_base32 (h : Nat) : List Char :=
  base32_encode (toBeBytes 8 h)

/-- `Hash::from_base32`.  The source decodes and then runs
`buf.copy_from_slice(&hash[..8])`: when the decode yields fewer than
8 bytes the slice indexing panics, hence the `Panics` result. -/
def from_base32 (s : List Char) : Panics (Option Nat) :=
  match base32_decode s with
  | none => .ret none
  | some bytes =>
    if bytes.length < 8 then .panic
    else .ret (some (fromBeBytes (bytes.take 8)))

/-! ### Arithmetic bridges for the `u8` bit operations -/

set_option maxRecDepth 8192

/-! ## Resource formats (`wineyard-runtime/src/packages/manifest/resource.rs`
and `wineyard-core/src/archives/format.rs`) -/

/-- Module dialects (`ResourceModuleFormat`); `auto` is the default. -/
inductive ResourceModuleFormat where
  | auto
  | luau

deriving DecidableEq, Repr

/-- Archive kinds (`ResourceArchiveFormat`); `auto` is the default. -/
inductive ResourceArchiveFormat where
  | auto
  | tar
  | zip
  | sevenz

deriving DecidableEq, Repr

/-- Resource formats (`ResourceFormat`). -/
inductive ResourceFormat where
  | file
  | package
  | module (f : ResourceModuleFormat)
  | archive (f : ResourceArchiveFormat)

deriving DecidableEq, Repr

/-- Archive kinds of `wineyard-core` (`ArchiveFormat`). -/
inductive CoreArchiveFormat where
  | tar
  | zip
  | sevenz

deriving DecidableEq, Repr

/-- The `FORMATS` extension table of `wineyard-core/src/archives/format.rs`. -/
def archiveFormats : List (CoreArchiveFormat × List (List Char)) :=
  [ (.tar, [".tar".toList, ".tar.xz".toList, ".tar.gz".toList,
      ".tar.bz2".toList, ".tar.zst".toList, ".tar.zstd".toList,
      ".txz".toList, ".tgz".toList, ".tbz2".toList, ".tzst".toList,
      ".tzstd".toList]),
    (.zip, [".zip".toList]),
    (.sevenz, [".7z".toList, ".7z.001".toList, ".zip.001".toList]) ]

/-- `ArchiveFormat::from_path`: the first format one of whose extensions is a
suffix of the path. -/
def archive_from_path (path : List Char) : Option CoreArchiveFormat :=
  archiveFormats.findSome? fun p =>
    if p.2.any (fun ext => ext.isSuffixOf path) then some p.1 else none

/-- `From<ArchiveFormat> for ResourceArchiveFormat`. -/
def resourceArchiveOfCore : CoreArchiveFormat → ResourceArchiveFormat
  | .tar => .tar
  | .zip => .zip
  | .sevenz => .sevenz

/-- Replace `\` by `/` (`str::replace('\\', "/")`). -/
def bslashToSlash (c : Char) : Char :=
  if c = '\\' then '/' else c

/-- One left-to-right pass of `str::replace("//", "/")`: non-overlapping
matches are replaced and scanning continues after the replacement. -/
def collapseDS : List Char → List Char
  | '/' :: '/' :: rest => '/' :: collapseDS rest
  | c :: rest => c :: collapseDS rest
  | [] => []

/-- Suffix after the last `/`, `none` when the list has no `/`
(`str::rsplit_once('/')`, keeping only the part after the separator). -/
def afterLastSlash : List Char → Option (List Char)
  | [] => none
  | c :: rest =>
    match afterLastSlash rest with
    | some s => some s
    | none => if c = '/' then some rest else none

/-- `ResourceFormat::from_uri`: clean the URI, take the file name after the
last slash (`"index.html"` when there is no slash), then classify by
archive extension, then by the `.luau`/`.lua` suffixes. -/
def from_uri (uri : List Char) : ResourceFormat :=
  let s := collapseDS (uri.map bslashToSlash)
  let fileName := match afterLastSlash s with
    | some fname => fname
    | none => "index.html".toList
  match archive_from_path fileName with
  | some f => .archive (resourceArchiveOfCore f)
  | none =>
    if ".luau".toList.isSuffixOf fileName ∨ ".lua".toList.isSuffixOf fileName
    then .module .luau
    else .file

/-- Is the character a path separator in the claim's sense (`/` or `\`)? -/
def isSepChar (c : Char) : Bool :=
  c = '/' || c = '\\'

/-- Component of the URI after its last path separator, `none` for a
separator-free (path-less) URI.  Written from the claim's wording to compare
against `from_uri`. -/
def lastComponent : List Char → Option (List Char)
  | [] => none
  | c :: rest =>
    match lastComponent rest with
    | some s => some s
    | none => if isSepChar c then some rest else none

/-- Format inference as the specification words it: empty or path-less URIs
default to `File`; otherwise tar/zip/7z extensions of the final component
map to `Archive`, a `.luau`/`.lua` suffix maps to `Module`, and everything
else to `File`. -/
def specFormatOfUri (uri : List Char) : ResourceFormat :=
  match lastComponent uri with
  | none => .file
  | some fname =>
    match archive_from_path fname with
    | some f => .archive (resourceArchiveOfCore f)
    | none =>
      if ".luau".toList.isSuffixOf fname ∨ ".lua".toList.isSuffixOf fname
      then .module .luau
      else .file

/-! ## Lock-file data model (`wineyard-runtime/src/packages/lock_file.rs`)

`inputs`/`outputs` are `HashMap<String, u32>` in the source; they are
modelled as association lists, compared as written (the source compares
them as maps). -/

/-- The `lock` sub-table of a resource (`ResourceLockData`). -/
structure ResourceLockData where
  hash : Nat
  size : Nat

deriving DecidableEq, Repr

/-- One locked resource (`ResourceLock`). -/
structure ResourceLock where
  url : List Char
  format : ResourceFormat
  lock : ResourceLockData
  inputs : Option (List (List Char × Nat))
  outputs : Option (List (List Char × Nat))

deriving DecidableEq, Repr

/-- The `[lock]` table (`LockFileInfo`). -/
structure LockFileInfo where
  root : List Nat

deriving DecidableEq, Repr

/-- A lock file (`LockFile`). -/
structure LockFile where
  lock : LockFileInfo
  resources : List ResourceLock

deriving DecidableEq, Repr

/-! ## Resource store (`wineyard-runtime/src/packages/store.rs`)

The filesystem is an oracle: which paths exist, and what
`Hash::for_entry` returns on a path (`none` models an I/O error). -/

/-- Filesystem oracle used by `ResourceStore::validate`. -/
structure FileSys where
  entryExists : List Char → Bool
  entryHash : List Char → Option Nat

/-- A resource store rooted at a folder (`ResourceStore`). -/
structure ResourceStore where
  folder : List Char

deriving DecidableEq

/-- `ResourceStore::get_path`: `folder / base32(hash)`. -/
def get_path (store : ResourceStore) (hash : Nat) : List Char :=
  store.folder ++ '/' :: to_base32 hash

/-- `ResourceStore::get_temp_path`: `folder / base32(hash) + ".tmp"`. -/
def get_temp_path (store : ResourceStore) (hash : Nat) : List Char :=
  store.folder ++ '/' :: (to_base32 hash ++ ".tmp".toList)

/-- The resource loop of `ResourceStore::validate`: `false` as soon as a
resource's path is missing or its recomputed hash differs, `none` when
recomputing the hash fails with an I/O error. -/
def validateLoop (fs : FileSys) (store : ResourceStore) :
    List ResourceLock → Option Bool
  | [] => some true
  | r :: rest =>
    let path := get_path store r.lock.hash
    if fs.entryExists path = false then some false
    else
      match fs.entryHash path with
      | none => none
      | some hh =>
        if r.lock.hash ≠ hh then some false else validateLoop fs store rest

/-- `ResourceStore::validate`. -/
def validate (fs : FileSys) (store : ResourceStore) (lock_file : LockFile) :
    Option Bool :=
  validateLoop fs store lock_file.resources

/-! ## URL normalization (`normalize_url` in
`wineyard-runtime/src/packages/resolver.rs`) -/

/-- `str::split_once` for a pattern string: split at the first occurrence. -/
def splitOnceStr (pat : List Char) : List Char → Option (List Char × List Char)
  | [] => if pat.isPrefixOf ([] : List Char) then some ([], []) else none
  | c :: rest =>
    if pat.isPrefixOf (c :: rest) then some ([], (c :: rest).drop pat.length)
    else (splitOnceStr pat rest).map fun p => (c :: p.1, p.2)

/-- One left-to-right pass of `str::replace("/./", "/")`. -/
def collapseSDS : List Char → List Char
  | '/' :: '.' :: '/' :: rest => '/' :: collapseSDS rest
  | c :: rest => c :: collapseSDS rest
  | [] => []

/-- The `..`-folding loop of `normalize_url`: walk the first `n` parts,
dropping a part together with a following `".."`.  The loop advances `i`
by 1 or 2 each iteration, so running it with `fuel = n` steps (`n - i`
never exceeds the remaining fuel) reproduces the source's `while i < n`
loop exactly. -/
def urlFoldLoop (url : List (List Char)) : Nat → Nat → Nat → List (List Char)
  | _, _, 0 => []
  | i, n, fuel + 1 =>
    if i < n then
      if url.getD (i + 1) [] = "..".toList then urlFoldLoop url (i + 2) n fuel
      else url.getD i [] :: urlFoldLoop url (i + 1) n fuel
    else []

/-- `normalize_url`: split off the scheme, replace `\` by `/`, one
`replace` pass each for `"/./"` and `"//"`, fold `x/..` pairs, re-attach
the scheme. -/
def normalize_url (url : List Char) : List Char :=
  let parts := match splitOnceStr "://".toList url with
    | some (s, r) => (some s, r)
    | none => (none, url)
  let u := collapseDS (collapseSDS (parts.2.map bslashToSlash))
  let segs := u.splitOn '/'
  let n := segs.length - 1
  let cleaned := urlFoldLoop segs 0 n n ++ [segs.getD n []]
  let joined := List.intercalate ['/'] cleaned
  match parts.1 with
  | some s => s ++ "://".toList ++ joined
  | none => joined

/-! ## Path normalization (`wineyard-runtime/src/runtime/engine/api/path_api.rs`) -/

/-- The while loop of `normalize_path_parts`, with the `Vec` accumulator
kept reversed (`push`/`pop` work on its head); `pop` on an empty
accumulator aborts with `None`. -/
def nppLoop (acc : List (List Char)) : List (List Char) →
    Option (List (List Char))
  | [] => some acc
  | p :: rest =>
    if p = ".".toList then nppLoop acc rest
    else if p = "..".toList then
      match acc with
      | [] => none
      | _ :: acc' => nppLoop acc' rest
    else if p = [] ∨ p = "/".toList ∨ p = "\\".toList then nppLoop acc rest
    else nppLoop (p :: acc) rest

/-- `normalize_path_parts`: fold the parts; an empty result is `None`. -/
def normalize_path_parts (parts : List (List Char)) :
    Option (List (List Char)) :=
  match nppLoop [] parts with
  | none => none
  | some acc => if acc = [] then none else some acc.reverse

/-- `split_path`: replace `\` by `/`, split on `/`, normalize. -/
def split_path (path : List Char) : Option (List (List Char)) :=
  normalize_path_parts ((path.map bslashToSlash).splitOn '/')

/-- `path.normalize`: empty paths give nothing; a leading `/` is stripped
and marks the path absolute; a path that normalizes to no parts gives `/`
when absolute and nothing otherwise. -/
def path_normalize (path : List Char) : Option (List Char) :=
  if path = [] then none
  else
    let stripped := match path with
      | '/' :: rest => (rest, true)
      | _ => (path, false)
    match split_path stripped.1 with
    | some parts =>
      some (if stripped.2
        then '/' :: List.intercalate ['/'] parts
        else List.intercalate ['/'] parts)
    | none => if stripped.2 then some ['/'] else none

/-! ## Keyed mutexes (`wineyard-runtime/src/runtime/engine/api/sync_api.rs`)

`sync_mutex_consumers` maps handles to keys; `sync_mutex_locks` maps keys
to the handle currently holding the lock.  `sync.mutex.lock` polls in a
loop, sleeping `MUTEX_LOCK_TIMEOUT` between iterations; the fuel counts
poll iterations. -/

/-- The mutex tables of `SyncAPI`. -/
structure MutexState where
  consumers : List (Int × Nat)
  locks : List (Nat × Option Int)

deriving DecidableEq

/-- Result of a `sync.mutex.lock` call observed for a bounded number of
poll iterations. -/
inductive MutexLockResult where
  | invalidHandle
  | acquired (locks : List (Nat × Option Int))
  | spinning

deriving DecidableEq

/-- One iteration of the polling loop in `sync_mutex_lock`: acquire when
the key is unlocked or unregistered, otherwise report that this iteration
would sleep and retry (`none`). -/
def sync_mutex_lock_iter (locks : List (Nat × Option Int)) (key : Nat)
    (handle : Int) : Option (List (Nat × Option Int)) :=
  match assocGet locks key with
  | some none => some (assocSet locks key (some handle))
  | some (some _) => none
  | none => some (assocSet locks key (some handle))

/-- The polling loop of `sync_mutex_lock`, bounded by `fuel` iterations.
The loop itself never changes the tables while spinning. -/
def sync_mutex_lock_loop (key : Nat) (handle : Int) :
    Nat → List (Nat × Option Int) → MutexLockResult
  | 0, _ => .spinning
  | fuel + 1, locks =>
    match sync_mutex_lock_iter locks key handle with
    | some locks' => .acquired locks'
    | none => sync_mutex_lock_loop key handle fuel locks

/-- `sync_mutex_lock`: resolve the handle's key, then poll. -/
def sync_mutex_lock (st : MutexState) (handle : Int) (fuel : Nat) :
    MutexLockResult :=
  match assocGet st.consumers handle with
  | none => .invalidHandle
  | some key => sync_mutex_lock_loop key handle fuel st.locks

/-! ## TOML document model

The `toml::Value`/`toml::Table` shapes used by the codecs; tables are
association lists in insertion order, inserted with `assocSet`. -/

/-- A TOML value (`toml::Value`), restricted to the shapes the codecs use. -/
inductive Toml where
  | str (s : List Char)
  | int (i : Int)
  | boolean (b : Bool)
  | array (l : List Toml)
  | table (t : List (List Char × Toml))

/-- Shorthand for string literals as character lists. -/
def lc (s : String) : List Char := s.toList

instance : Inhabited Toml := ⟨.int 0⟩

/-- A TOML table (`toml::Table`). -/
abbrev TomlTable := List (List Char × Toml)

/-- `Toml::as_str`. -/
def Toml.as_str : Toml → Option (List Char)
  | .str s => some s
  | _ => none

/-- `Toml::as_integer`. -/
def Toml.as_integer : Toml → Option Int
  | .int i => some i
  | _ => none

/-- `Toml::as_array`. -/
def Toml.as_array : Toml → Option (List Toml)
  | .array l => some l
  | _ => none

/-- `Toml::as_table`. -/
def Toml.as_table : Toml → Option TomlTable
  | .table t => some t
  | _ => none

/-- Collect key/value pairs into a table by repeated insertion. -/
def tableOfPairs (l : List (List Char × Toml)) : TomlTable :=
  l.foldl (fun acc p => assocSet acc p.1 p.2) []

/-! ## Machine-integer casts -/

/-- Rust `as u16` on an `i64` (two's-complement truncation). -/
def u16cast (i : Int) : Nat := (i % 65536).toNat

/-- Rust `as u32` on an `i64`. -/
def u32cast (i : Int) : Nat := (i % 4294967296).toNat

/-- Rust `as u64` on an `i64`. -/
def u64cast (i : Int) : Nat := (i % 18446744073709551616).toNat

/-- Rust `as i64` on a `u64`. -/
def i64ofU64 (n : Nat) : Int :=
  if n < 9223372036854775808 then (n : Int)
  else (n : Int) - 18446744073709551616

/-! ## Package manifests (`wineyard-runtime/src/packages/manifest/mod.rs`) -/

/-- `ResourceInfo`: a declared input or output. -/
structure ResourceInfo where
  uri : List Char
  format : ResourceFormat
  hash : Option Nat

deriving DecidableEq, Repr

/-- `PackageInfo`: metadata fields of a package. -/
structure PackageInfo where
  description : Option (List Char)
  authors : List (List Char)

deriving DecidableEq, Repr

/-- `RuntimeInfo`: runtime requirements (`minimal_version` is a `u32`). -/
structure RuntimeInfo where
  minimal_version : Nat

deriving DecidableEq, Repr

/-- `RuntimeInfo::is_empty`: `minimal_version < 2`. -/
def RuntimeInfo.is_empty (r : RuntimeInfo) : Bool :=
  r.minimal_version < 2

/-- `PackageManifest`. -/
structure PackageManifest where
  package : PackageInfo
  runtime : RuntimeInfo
  inputs : List (List Char × ResourceInfo)
  outputs : List (List Char × ResourceInfo)

deriving DecidableEq, Repr

/-- `PackageManifestError`. -/
inductive PackageManifestError where
  | packageInvalidFieldFormat (field expected : List Char)
  | packageUnknownFormatVersion (v : Nat)
  | resourceMissingUri
  | resourceUnknownFormat (s : List Char)
  | resourceUnknownModuleFormat (s : List Char)
  | resourceUnknownArchiveFormat (s : List Char)

deriving DecidableEq, Repr

/-- `Display for ResourceModuleFormat`. -/
def displayModuleFormat : ResourceModuleFormat → List Char
  | .auto => lc "auto"
  | .luau => lc "luau"

/-- `Display for ResourceArchiveFormat`. -/
def displayArchiveFormat : ResourceArchiveFormat → List Char
  | .auto => lc "auto"
  | .tar => lc "tar"
  | .zip => lc "zip"
  | .sevenz => lc "7z"

/-- `Display for ResourceFormat`. -/
def displayResourceFormat : ResourceFormat → List Char
  | .file => lc "file"
  | .package => lc "package"
  | .module f => lc "module/" ++ displayModuleFormat f
  | .archive f => lc "archive/" ++ displayArchiveFormat f

/-- `FromStr for ResourceModuleFormat`. -/
def moduleFormatFromStr (s : List Char) :
    Except PackageManifestError ResourceModuleFormat :=
  if s = lc "auto" then .ok .auto
  else if s = lc "luau" ∨ s = lc "lua" then .ok .luau
  else .error (.resourceUnknownModuleFormat s)

/-- `FromStr for ResourceArchiveFormat`. -/
def archiveFormatFromStr (s : List Char) :
    Except PackageManifestError ResourceArchiveFormat :=
  if s = lc "auto" then .ok .auto
  else if s = lc "tar" then .ok .tar
  else if s = lc "zip" then .ok .zip
  else if s = lc "7z" ∨ s = lc "sevenz" then .ok .sevenz
  else .error (.resourceUnknownArchiveFormat s)

/-- `FromStr for ResourceFormat`: split at the first `/` (`"auto"` when
absent), dispatch on the primary name, defaulting an `"auto"` secondary. -/
def resourceFormatFromStr (s : List Char) :
    Except PackageManifestError ResourceFormat :=
  let p := match splitOnceStr ['/'] s with
    | some q => q
    | none => (s, lc "auto")
  if p.1 = lc "file" then .ok .file
  else if p.1 = lc "package" then .ok .package
  else if p.1 = lc "module" then
    if p.2 = lc "auto" then .ok (.module .auto)
    else (moduleFormatFromStr p.2).map .module
  else if p.1 = lc "archive" then
    if p.2 = lc "auto" then .ok (.archive .auto)
    else (archiveFormatFromStr p.2).map .archive
  else .error (.resourceUnknownFormat s)

/-- `encode_resource` of `From<&PackageManifest> for TomlTable`. -/
def encode_resource (r : ResourceInfo) : TomlTable :=
  let t := assocSet [] (lc "uri") (.str r.uri)
  let t := assocSet t (lc "format") (.str (displayResourceFormat r.format))
  match r.hash with
  | some hsh => assocSet t (lc "hash") (.str (to_base32 hsh))
  | none => t

/-- The `[package]` table written by `From<&PackageManifest> for TomlTable`. -/
def package_info_table (p : PackageInfo) : TomlTable :=
  let pkg := assocSet [] (lc "format") (.int 1)
  let pkg := match p.description with
    | some d => assocSet pkg (lc "description") (.str d)
    | none => pkg
  if p.authors.isEmpty then pkg
  else assocSet pkg (lc "authors") (.array (p.authors.map .str))

/-- `From<&PackageManifest> for TomlTable`. -/
def manifest_to_toml (m : PackageManifest) : TomlTable :=
  let man := assocSet [] (lc "package") (.table (package_info_table m.package))
  let man :=
    if m.runtime.is_empty then man
    else assocSet man (lc "runtime")
      (.table (assocSet [] (lc "minimal_version")
        (.int (m.runtime.minimal_version : Int))))
  let man :=
    if m.inputs.isEmpty then man
    else assocSet man (lc "inputs")
      (.table (tableOfPairs (m.inputs.map
        fun p => (p.1, Toml.table (encode_resource p.2)))))
  if m.outputs.isEmpty then man
  else assocSet man (lc "outputs")
    (.table (tableOfPairs (m.outputs.map
      fun p => (p.1, Toml.table (encode_resource p.2)))))

/-- `parse_resource` of `TryFrom<&TomlTable> for PackageManifest`; the hash
field parse runs `Hash::from_base32`, which can panic. -/
def parse_resource (t : TomlTable) :
    Panics (Except PackageManifestError ResourceInfo) := do
  match assocGet t (lc "uri") with
  | none => pure (.error .resourceMissingUri)
  | some uriv =>
    match uriv.as_str with
    | none => pure (.error (.packageInvalidFieldFormat
        (lc "<resource>.uri") (lc "string")))
    | some uri =>
      let fmtR : Except PackageManifestError ResourceFormat :=
        match assocGet t (lc "format") with
        | some f =>
          match f.as_str with
          | none => .error (.packageInvalidFieldFormat
              (lc "<resource>.format") (lc "string"))
          | some fs => resourceFormatFromStr fs
        | none => .ok (from_uri uri)
      match fmtR with
      | .error e => pure (.error e)
      | .ok fmt =>
        match assocGet t (lc "hash") with
        | none => pure (.ok ⟨uri, fmt, none⟩)
        | some hv =>
          match hv.as_str with
          | some hs => do
            let oh ← from_base32 hs
            match oh with
            | some hsh => pure (.ok ⟨uri, fmt, some hsh⟩)
            | none => pure (.error (.packageInvalidFieldFormat
                (lc "<resource>.hash") (lc "string")))
          | none =>
            match hv.as_integer with
            | some i => pure (.ok ⟨uri, fmt, some (u64cast i)⟩)
            | none => pure (.error (.packageInvalidFieldFormat
                (lc "<resource>.hash") (lc "string")))

/-- One `inputs`/`outputs` entry of the manifest decoder: a plain string is
a URI with inferred format, a table goes through `parse_resource`. -/
def parse_entry (field : List Char) (name : List Char) (v : Toml) :
    Panics (Except PackageManifestError (List Char × ResourceInfo)) := do
  match v.as_str with
  | some uri => pure (.ok (name, ⟨uri, from_uri uri, none⟩))
  | none =>
    match v.as_table with
    | some rt => do
      let r ← parse_resource rt
      pure (r.map fun ri => (name, ri))
    | none => pure (.error (.packageInvalidFieldFormat field (lc "table")))

/-- Collect the entries of an `inputs`/`outputs` table, stopping at the
first error. -/
def parse_entries (field : List Char) :
    List (List Char × Toml) →
    Panics (Except PackageManifestError (List (List Char × ResourceInfo)))
  | [] => pure (.ok [])
  | (name, v) :: rest => do
    let r ← parse_entry field name v
    match r with
    | .error e => pure (.error e)
    | .ok entry => do
      let r2 ← parse_entries field rest
      pure (r2.map fun l => entry :: l)

/-- The `description` block of the manifest decoder. -/
def decode_description (pkg : TomlTable) :
    Except PackageManifestError (Option (List Char)) :=
  match assocGet pkg (lc "description") with
  | none => .ok none
  | some d =>
    match d.as_str with
    | none => .error (.packageInvalidFieldFormat
        (lc "package.description") (lc "string"))
    | some s => .ok (some s)

/-- The `authors` block of the manifest decoder. -/
def decode_authors (pkg : TomlTable) :
    Except PackageManifestError (List (List Char)) :=
  match assocGet pkg (lc "authors") with
  | none => .ok []
  | some a =>
    match a.as_array with
    | none => .error (.packageInvalidFieldFormat
        (lc "package.authors") (lc "string[]"))
    | some arr =>
      match (arr.map Toml.as_str).foldr
        (fun o acc => o.bind fun x => acc.map (x :: ·)) (some []) with
      | none => .error (.packageInvalidFieldFormat
          (lc "package.authors") (lc "string[]"))
      | some authors => .ok authors

/-- The `runtime` block of the manifest decoder. -/
def decode_runtime (t : TomlTable) : Except PackageManifestError Nat :=
  match assocGet t (lc "runtime") with
  | none => .ok 0
  | some r =>
    match r.as_table with
    | none => .error (.packageInvalidFieldFormat (lc "runtime") (lc "table"))
    | some rt =>
      match assocGet rt (lc "minimal_version") with
      | none => .ok 0
      | some mv =>
        match mv.as_integer with
        | none => .error (.packageInvalidFieldFormat
            (lc "runtime.minimal_version") (lc "integer"))
        | some i => .ok (u32cast i)

/-- The `inputs`/`outputs` block of the manifest decoder. -/
def decode_entries_field (t : TomlTable) (key field bad : List Char) :
    Panics (Except PackageManifestError (List (List Char × ResourceInfo))) :=
  match assocGet t key with
  | none => pure (.ok [])
  | some iv =>
    match iv.as_table with
    | none => pure (.error (.packageInvalidFieldFormat field (lc "array")))
    | some it => parse_entries bad it

/-- `TryFrom<&TomlTable> for PackageManifest`. -/
def manifest_try_from (t : TomlTable) :
    Panics (Except PackageManifestError PackageManifest) := do
  match (assocGet t (lc "package")).bind Toml.as_table with
  | none => pure (.error (.packageInvalidFieldFormat
      (lc "package") (lc "table")))
  | some pkg =>
    match (assocGet pkg (lc "format")).bind Toml.as_integer with
    | none => pure (.error (.packageInvalidFieldFormat
        (lc "package.format") (lc "integer")))
    | some fi =>
      if u16cast fi = 1 then
        match decode_description pkg with
        | .error e => pure (.error e)
        | .ok desc =>
          match decode_authors pkg with
          | .error e => pure (.error e)
          | .ok authors =>
            match decode_runtime t with
            | .error e => pure (.error e)
            | .ok mv => do
              let inputsR ← decode_entries_field t (lc "inputs")
                (lc "inputs") (lc "inputs[]")
              match inputsR with
              | .error e => pure (.error e)
              | .ok inputs => do
                let outputsR ← decode_entries_field t (lc "outputs")
                  (lc "outputs") (lc "outputs[]")
                match outputsR with
                | .error e => pure (.error e)
                | .ok outputs =>
                  pure (.ok ⟨⟨desc, authors⟩, ⟨mv⟩, inputs, outputs⟩)
      else pure (.error (.packageUnknownFormatVersion (u16cast fi)))

/-! ## Lock-file codec (`wineyard-runtime/src/packages/lock_file.rs`) -/

/-- `LockFileError`. -/
inductive LockFileError where
  | packageManifestError (e : PackageManifestError)
  | invalidFormatVersion (v : Nat)
  | invalidFieldValue (field expected : List Char)

deriving DecidableEq, Repr

/-- Encoding of one resource by `From<&LockFile> for TomlTable`. -/
def encode_resource_lock (r : ResourceLock) : TomlTable :=
  let t := assocSet [] (lc "url") (.str r.url)
  let t := assocSet t (lc "format") (.str (displayResourceFormat r.format))
  let lockT := assocSet [] (lc "hash") (.str (to_base32 r.lock.hash))
  let lockT := assocSet lockT (lc "size") (.int (i64ofU64 r.lock.size))
  let t := assocSet t (lc "lock") (.table lockT)
  let t := match r.inputs with
    | some ins => assocSet t (lc "inputs")
        (.table (tableOfPairs (ins.map fun p => (p.1, Toml.int (p.2 : Int)))))
    | none => t
  match r.outputs with
  | some outs => assocSet t (lc "outputs")
      (.table (tableOfPairs (outs.map fun p => (p.1, Toml.int (p.2 : Int)))))
  | none => t

/-- `From<&LockFile> for TomlTable`. -/
def lock_to_toml (lf : LockFile) : TomlTable :=
  let lockInfo := assocSet [] (lc "format") (.int 1)
  let lockInfo := assocSet lockInfo (lc "root")
    (.array (lf.lock.root.map fun id : Nat => Toml.int (id : Int)))
  let lockFile := assocSet [] (lc "lock") (.table lockInfo)
  assocSet lockFile (lc "resources")
    (.array (lf.resources.map fun r => Toml.table (encode_resource_lock r)))

/-- Read an `inputs`/`outputs` table of integer ids
(`collect::<Option<HashMap<String, u32>>>`). -/
def readIdTable : List (List Char × Toml) → Option (List (List Char × Nat))
  | [] => some []
  | (name, v) :: rest =>
    match v.as_integer with
    | none => none
    | some i => (readIdTable rest).map fun l => (name, u32cast i) :: l

/-- `parse_resource` of `TryFrom<&TomlTable> for LockFile`; the hash field
parse runs `Hash::from_base32`, which can panic. -/
def parse_resource_lock (t : TomlTable) :
    Panics (Except LockFileError ResourceLock) := do
  match (assocGet t (lc "url")).bind Toml.as_str with
  | none => pure (.error (.invalidFieldValue
      (lc "<resource>.url") (lc "string")))
  | some url =>
    match (assocGet t (lc "format")).bind Toml.as_str with
    | none => pure (.error (.invalidFieldValue
        (lc "<resource>.format") (lc "string")))
    | some fs =>
      match resourceFormatFromStr fs with
      | .error e => pure (.error (.packageManifestError e))
      | .ok fmt =>
        match (assocGet t (lc "lock")).bind Toml.as_table with
        | none => pure (.error (.invalidFieldValue
            (lc "<resource>.lock") (lc "table")))
        | some lockT =>
          match (assocGet lockT (lc "hash")).bind Toml.as_str with
          | none => pure (.error (.invalidFieldValue
              (lc "<resource>.lock.hash") (lc "string")))
          | some hs => do
            let oh ← from_base32 hs
            match oh with
            | none => pure (.error (.invalidFieldValue
                (lc "<resource>.lock.hash") (lc "string")))
            | some hsh =>
              match (assocGet lockT (lc "size")).bind Toml.as_integer with
              | none => pure (.error (.invalidFieldValue
                  (lc "<resource>.lock.size") (lc "integer")))
              | some szI =>
                let inputsR : Except LockFileError
                    (Option (List (List Char × Nat))) :=
                  match (assocGet t (lc "inputs")).bind Toml.as_table with
                  | none => .ok none
                  | some it =>
                    match readIdTable it with
                    | none => .error (.invalidFieldValue
                        (lc "<resource>.inputs") (lc "table"))
                    | some ids => .ok (some ids)
                match inputsR with
                | .error e => pure (.error e)
                | .ok inputs =>
                  let outputsR : Except LockFileError
                      (Option (List (List Char × Nat))) :=
                    match (assocGet t (lc "outputs")).bind Toml.as_table with
                    | none => .ok none
                    | some ot =>
                      match readIdTable ot with
                      | none => .error (.invalidFieldValue
                          (lc "<resource>.outputs") (lc "table"))
                      | some ids => .ok (some ids)
                  match outputsR with
                  | .error e => pure (.error e)
                  | .ok outputs =>
                    pure (.ok ⟨url, fmt, ⟨hsh, u64cast szI⟩, inputs, outputs⟩)

/-- Read `lock.root` (`collect::<Option<Vec<u32>>>`). -/
def readRootIds : List Toml → Option (List Nat)
  | [] => some []
  | v :: rest =>
    match v.as_integer with
    | none => none
    | some i => (readRootIds rest).map fun l => u32cast i :: l

/-- Decode the `resources` array, each entry a table fed to
`parse_resource_lock`, stopping at the first error. -/
def readResources : List Toml → Panics (Except LockFileError (List ResourceLock))
  | [] => pure (.ok [])
  | v :: rest => do
    match v.as_table with
    | none => pure (.error (.invalidFieldValue (lc "resources[]") (lc "table")))
    | some rt => do
      let r ← parse_resource_lock rt
      match r with
      | .error e => pure (.error e)
      | .ok res => do
        let r2 ← readResources rest
        pure (r2.map fun l => res :: l)

/-- `TryFrom<&TomlTable> for LockFile`: require a `lock` table with an
integer `format` whose `u16` truncation is `1`, then read `root` and
`resources`. -/
def lock_try_from (t : TomlTable) : Panics (Except LockFileError LockFile) := do
  match (assocGet t (lc "lock")).bind Toml.as_table with
  | none => pure (.error (.invalidFieldValue (lc "lock") (lc "table")))
  | some lockT =>
    match (assocGet lockT (lc "format")).bind Toml.as_integer with
    | none => pure (.error (.invalidFieldValue
        (lc "lock.format") (lc "integer")))
    | some fi =>
      if u16cast fi = 1 then
        match (assocGet lockT (lc "root")).bind Toml.as_array
            |>.bind readRootIds with
        | none => pure (.error (.invalidFieldValue
            (lc "lock.root") (lc "integer[]")))
        | some root =>
          match (assocGet t (lc "resources")).bind Toml.as_array with
          | none => pure (.error (.invalidFieldValue
              (lc "resources") (lc "array")))
          | some arr => do
            let r ← readResources arr
            pure (r.map fun resources => ⟨⟨root⟩, resources⟩)
      else pure (.error (.invalidFormatVersion (u16cast fi)))

/-! ## The resolver (`PackagesResolver::build`,
`wineyard-runtime/src/packages/resolver.rs`)

Network, filesystem and archive extraction are an oracle `World`:
`fetchPackage url` is the downloaded-and-parsed manifest at `url` together
with its content hash and byte size (`none` = download/parse failure);
`fetchResource url format` is the entry hash and size a resource at `url`
commits to the store after download (and extraction, for archives)
(`none` = download or extraction failure).  `Hash::rand()` placeholders
are modelled by a fresh counter `nextTemp`; the `while` loop is run on
fuel, where running out of fuel is a modelling artifact reported as an
error (the Rust loop simply keeps running). -/

/-- The world oracle for a resolver run. -/
structure World where
  fetchPackage : List Char → Option (PackageManifest × Nat × Nat)
  fetchResource : List Char → ResourceFormat → Option (Nat × Nat)

/-- `PackagesResolverError` (world failures collapsed into `fetchError`). -/
inductive PackagesResolverError where
  | fetchError
  | hashMismatch (current expected : Nat)
  | fuelExhausted

deriving DecidableEq, Repr

/-- The mutable state of `PackagesResolver::build`. -/
structure RState where
  packages : List (List Char × Nat × Bool)
  store : List Nat
  lockResources : List ResourceLock
  lockRoot : List Nat
  requested : List (List Char × ResourceFormat)
  residx : List ((List Char × ResourceFormat) × Nat)
  assigned : List (Nat × (List Char × ResourceFormat))
  refs : List (Nat × List Char × Nat × Bool)
  nextTemp : Nat

deriving Repr

/-- Phase 1 (spawn package downloads): append `"/package.json"` when
missing, normalize, record the temp hash's unique key, dedup against
`requested_urls`, and emit a download task
`(package_url, root_url, unique_key, is_root)`. -/
def packagesSpawn :
    List (List Char × Nat × Bool) → RState →
    RState × List (List Char × List Char × (List Char × ResourceFormat) × Bool)
  | [], st => (st, [])
  | (url, temp, isRoot) :: rest, st =>
    let url1 := if ¬ (lc "/package.json").isSuffixOf url
      then url ++ lc "/package.json" else url
    let url2 := normalize_url url1
    let key := (url2, ResourceFormat.package)
    let st := { st with assigned := assocSet st.assigned temp key }
    if key ∈ st.requested then packagesSpawn rest st
    else
      let root_url := if (lc "package.json").isSuffixOf url2
        then url2.take (url2.length - 12) else url2
      let st := { st with requested := st.requested ++ [key] }
      let out := packagesSpawn rest st
      (out.1, (url2, root_url, key, isRoot) :: out.2)

/-- Enumerate the inputs or outputs of an ingested package: allocate a
fresh temp hash per entry, push a deferred reference and queue the
resource for download. -/
def enqueueRefs (idx : Nat) (isInput : Bool) (root_url : List Char) :
    List (List Char × ResourceInfo) → RState →
    RState × List (Nat × List Char × ResourceInfo)
  | [], st => (st, [])
  | (name, ri) :: rest, st =>
    let temp := st.nextTemp
    let st := { st with
      nextTemp := st.nextTemp + 1,
      refs := st.refs ++ [(temp, name, idx, isInput)] }
    let out := enqueueRefs idx isInput root_url rest st
    (out.1, (temp, root_url, ri) :: out.2)

/-- Phase 2 (ingest packages): read and hash the manifest, allocate the
next lock index, push a package `ResourceLock` with empty input/output
maps, mark roots (`lock_root` is a set), enumerate references, and rename
the manifest into the store. -/
def packagesIngest (w : World) :
    List (List Char × List Char × (List Char × ResourceFormat) × Bool) →
    RState →
    Except PackagesResolverError (RState × List (Nat × List Char × ResourceInfo))
  | [], st => .ok (st, [])
  | (url2, root_url, key, isRoot) :: rest, st =>
    match w.fetchPackage url2 with
    | none => .error .fetchError
    | some (m, mhash, msize) =>
      let idx := st.lockResources.length
      let st := { st with
        residx := assocSet st.residx key idx,
        lockResources := st.lockResources ++
          [⟨url2, .package, ⟨mhash, msize⟩, some [], some []⟩],
        lockRoot := if isRoot then
            (if idx % 4294967296 ∈ st.lockRoot then st.lockRoot
             else st.lockRoot ++ [idx % 4294967296])
          else st.lockRoot }
      let outIn := enqueueRefs idx true root_url m.inputs st
      let outOut := enqueueRefs idx false root_url m.outputs outIn.1
      let st := { outOut.1 with
        store := if mhash ∈ outOut.1.store then outOut.1.store
          else outOut.1.store ++ [mhash] }
      match packagesIngest w rest st with
      | .error e => .error e
      | .ok (st', resRest) => .ok (st', outIn.2 ++ outOut.2 ++ resRest)

/-- Phase 3 (spawn resource downloads): skip a resource whose declared
hash is already in the store (before any bookkeeping), resolve relative
URLs against the package's root URL, normalize, record the temp hash's
unique key, dedup, re-queue `Package` resources and emit a download task
for the rest. -/
def resourcesSpawn :
    List (Nat × List Char × ResourceInfo) → RState →
    RState × List (List Char × (List Char × ResourceFormat) × ResourceInfo)
  | [], st => (st, [])
  | (temp, root_url, ri) :: rest, st =>
    if (match ri.hash with
        | some h0 => st.store.contains h0
        | none => false) then
      resourcesSpawn rest st
    else
      let rurl := if (lc "http").isPrefixOf ri.uri then ri.uri
        else root_url ++ '/' :: ri.uri
      let url' := normalize_url rurl
      let key := (url', ri.format)
      let st := { st with assigned := assocSet st.assigned temp key }
      if key ∈ st.requested then resourcesSpawn rest st
      else if ri.format = .package then
        resourcesSpawn rest
          { st with packages := st.packages ++ [(url', temp, false)] }
      else
        let st := { st with requested := st.requested ++ [key] }
        let out := resourcesSpawn rest st
        (out.1, (url', key, ri) :: out.2)

/-- Phase 4 (ingest resources): compute the entry hash, rename into the
store, fail on a declared-hash mismatch, then push a `ResourceLock`
without inputs/outputs and record its index. -/
def resourcesIngest (w : World) :
    List (List Char × (List Char × ResourceFormat) × ResourceInfo) →
    RState → Except PackagesResolverError RState
  | [], st => .ok st
  | (url', key, ri) :: rest, st =>
    match w.fetchResource url' ri.format with
    | none => .error .fetchError
    | some (ehash, size) =>
      let st := { st with
        store := if ehash ∈ st.store then st.store else st.store ++ [ehash] }
      let idx := st.lockResources.length
      let st2 := { st with
        residx := assocSet st.residx key idx,
        lockResources := st.lockResources ++
          [⟨url', ri.format, ⟨ehash, size⟩, none, none⟩] }
      match ri.hash with
      | some expected =>
        if expected ≠ ehash then .error (.hashMismatch ehash expected)
        else resourcesIngest w rest st2
      | none => resourcesIngest w rest st2

/-- One iteration of the outer `while !packages.is_empty()` loop. -/
def buildStep (w : World) (st : RState) :
    Except PackagesResolverError RState :=
  let pend := st.packages
  let st := { st with packages := [] }
  let out := packagesSpawn pend st
  match packagesIngest w out.2 out.1 with
  | .error e => .error e
  | .ok (st, resources) =>
    let out2 := resourcesSpawn resources st
    resourcesIngest w out2.2 out2.1

/-- The outer loop, bounded by fuel. -/
def buildLoop (w : World) : Nat → RState → Except PackagesResolverError RState
  | 0, st => if st.packages.isEmpty then .ok st else .error .fuelExhausted
  | fuel + 1, st =>
    if st.packages.isEmpty then .ok st
    else
      match buildStep w st with
      | .error e => .error e
      | .ok st' => buildLoop w fuel st'

/-- The final reference-patching loop: resolve each deferred reference's
temp hash to its unique key and then to a lock index, and insert
`name → index` into the parent's inputs or outputs map (the parent index
is always in range, see `buildLoop_inv`). -/
def patchRefs :
    List (Nat × List Char × Nat × Bool) →
    List (Nat × (List Char × ResourceFormat)) →
    List ((List Char × ResourceFormat) × Nat) →
    List ResourceLock → List ResourceLock
  | [], _, _, res => res
  | (temp, name, idx, isInput) :: rest, assigned, residx, res =>
    let res' := match assocGet assigned temp with
      | none => res
      | some key =>
        match assocGet residx key with
        | none => res
        | some i =>
          match res.get? idx with
          | none => res
          | some r =>
            if isInput then
              res.set idx { r with
                inputs := r.inputs.map fun ins =>
                  assocSet ins name (i % 4294967296) }
            else
              res.set idx { r with
                outputs := r.outputs.map fun outs =>
                  assocSet outs name (i % 4294967296) }
    patchRefs rest assigned residx res'

/-- `PackagesResolver::build`: run the loop from the root package URLs
over a store initially containing `store0`, then patch references. -/
def build (w : World) (store0 : List Nat) (roots : List (List Char))
    (fuel : Nat) : Except PackagesResolverError LockFile :=
  let init : RState :=
    { packages := roots.enum.map fun p => (p.2, p.1, true),
      store := store0,
      lockResources := [],
      lockRoot := [],
      requested := [],
      residx := [],
      assigned := [],
      refs := [],
      nextTemp := roots.length }
  match buildLoop w fuel init with
  | .error e => .error e
  | .ok st =>
    .ok ⟨⟨st.lockRoot⟩, patchRefs st.refs st.assigned st.residx st.lockResources⟩

/-- Every id referenced from `root` or any `inputs`/`outputs` map of a
lock file is a valid index into its resources. -/
def idsValid (lf : LockFile) : Prop :=
  (∀ i ∈ lf.lock.root, i < lf.resources.length) ∧
  ∀ r ∈ lf.resources,
    (∀ ins, r.inputs = some ins → ∀ p ∈ ins, p.2 < lf.resources.length) ∧
    (∀ outs, r.outputs = some outs → ∀ p ∈ outs, p.2 < lf.resources.length)

/-- Every input/output name declared by the manifest of a locked package
appears in that package's lock inputs/outputs. -/
def namesComplete (w : World) (lf : LockFile) : Prop :=
  ∀ r ∈ lf.resources, r.format = .package →
    ∀ m mh ms, w.fetchPackage r.url = some (m, mh, ms) →
      (∀ p ∈ m.inputs, ∃ ins, r.inputs = some ins ∧ p.1 ∈ ins.map Prod.fst) ∧
      (∀ p ∈ m.outputs, ∃ outs, r.outputs = some outs ∧ p.1 ∈ outs.map Prod.fst)

/-! ### Invariants of the resolver state -/

/-- No manifest reachable through the world declares an expected hash. -/
def NoDeclaredHashes (w : World) : Prop :=
  ∀ url m mh ms, w.fetchPackage url = some (m, mh, ms) →
    (∀ p ∈ m.inputs, p.2.hash = none) ∧ (∀ p ∈ m.outputs, p.2.hash = none)

instance : Inhabited ResourceFormat := ⟨.file⟩

instance : Inhabited ResourceInfo := ⟨⟨[], .file, none⟩⟩

instance : Inhabited ResourceLock := ⟨⟨[], .file, ⟨0, 0⟩, none, none⟩⟩

/-- The index-validity part of the resolver invariant, maintained
unconditionally between iterations of the outer loop. -/
structure BaseInv (st : RState) : Prop where
  residx_lt : ∀ p ∈ st.residx, p.2 < st.lockResources.length
  root_lt : ∀ i ∈ st.lockRoot, i < st.lockResources.length
  entries_empty : ∀ r ∈ st.lockResources,
    (∀ ins, r.inputs = some ins → ins = []) ∧
    (∀ outs, r.outputs = some outs → outs = [])

/-- The name-completeness part of the resolver invariant, maintained
between iterations of the outer loop when no manifest declares a hash. -/
structure StInvN (w : World) (st : RState) : Prop where
  refs_pkg : ∀ rf ∈ st.refs, ∃ r,
    st.lockResources.get? rf.2.2.1 = some r ∧
    r.inputs.isSome ∧ r.outputs.isSome
  requested_idx : ∀ k ∈ st.requested, (assocGet st.residx k).isSome
  assigned_res : ∀ t k, assocGet st.assigned t = some k →
    (assocGet st.residx k).isSome ∨ ∃ e ∈ st.packages, e.2.1 = t
  names_refs : ∀ i r, st.lockResources.get? i = some r →
    r.format = .package →
    ∀ m mh ms, w.fetchPackage r.url = some (m, mh, ms) →
      (∀ p ∈ m.inputs, ∃ t, (t, p.1, i, true) ∈ st.refs) ∧
      (∀ p ∈ m.outputs, ∃ t, (t, p.1, i, false) ∈ st.refs)
  refs_assigned : ∀ rf ∈ st.refs, (assocGet st.assigned rf.1).isSome

/-- The body of the reference-patching loop, factored out of `patchRefs`
for the proofs below (`patchRefs_cons` shows the factoring is faithful). -/
def patchOne (rf : Nat × List Char × Nat × Bool)
    (assigned : List (Nat × (List Char × ResourceFormat)))
    (residx : List ((List Char × ResourceFormat) × Nat))
    (res : List ResourceLock) : List ResourceLock :=
  match assocGet assigned rf.1 with
  | none => res
  | some key =>
    match assocGet residx key with
    | none => res
    | some i =>
      match res.get? rf.2.2.1 with
      | none => res
      | some r =>
        if rf.2.2.2 then
          res.set rf.2.2.1 { r with
            inputs := r.inputs.map fun ins =>
              assocSet ins rf.2.1 (i % 4294967296) }
        else
          res.set rf.2.2.1 { r with
            outputs := r.outputs.map fun outs =>
              assocSet outs rf.2.1 (i % 4294967296) }

/-- How one patching step may change a lock entry: url and format are
kept, input/output maps stay present, and no key is removed. -/
def Evolves (r r' : ResourceLock) : Prop :=
  r'.url = r.url ∧ r'.format = r.format ∧
  (r.inputs.isSome → r'.inputs.isSome) ∧
  (r.outputs.isSome → r'.outputs.isSome) ∧
  (∀ ins nm, r.inputs = some ins → nm ∈ ins.map Prod.fst →
    ∃ ins', r'.inputs = some ins' ∧ nm ∈ ins'.map Prod.fst) ∧
  (∀ outs nm, r.outputs = some outs → nm ∈ outs.map Prod.fst →
    ∃ outs', r'.outputs = some outs' ∧ nm ∈ outs'.map Prod.fst)

/-! ## Concrete worlds and documents used by the claim theorems -/

/-- A world with one root package whose single input declares a hash that
is already in the store: the resolver skips its download. -/
def skipWorld : World :=
  { fetchPackage := fun url =>
      if url = lc "r/package.json"
      then some (⟨⟨none, []⟩, ⟨0⟩,
        [(lc "x", ⟨lc "http://h/data.bin", .file, some 99⟩)], []⟩, 5, 10)
      else none
    fetchResource := fun _ _ => none }

/-- The lock file `build` produces on `skipWorld` with `99` pre-stored:
the declared input name `x` is missing from the package's lock inputs. -/
def skipLF : LockFile :=
  ⟨⟨[0]⟩, [⟨lc "r/package.json", .package, ⟨5, 10⟩, some [], some []⟩]⟩

/-- A world with one root package and one hash-free input resource. -/
def okWorld : World :=
  { fetchPackage := fun url =>
      if url = lc "r/package.json"
      then some (⟨⟨none, []⟩, ⟨0⟩,
        [(lc "x", ⟨lc "http://h/d", .file, none⟩)], []⟩, 5, 10)
      else none
    fetchResource := fun url _ =>
      if url = lc "http://h/d" then some (7, 3) else none }

/-- The lock file `build` produces on `okWorld`. -/
def okLF : LockFile :=
  ⟨⟨[0]⟩,
   [⟨lc "r/package.json", .package, ⟨5, 10⟩, some [(lc "x", 1)], some []⟩,
    ⟨lc "http://h/d", .file, ⟨7, 3⟩, none, none⟩]⟩

/-- A lock document whose `lock.format` integer is `65537`. -/
def fmt65537Doc : TomlTable :=
  [(lc "lock", Toml.table [(lc "format", Toml.int 65537),
      (lc "root", Toml.array [])]),
   (lc "resources", Toml.array [])]

/-- A lock document whose `lock.format` integer is `3`. -/
def fmt3Doc : TomlTable :=
  [(lc "lock", Toml.table [(lc "format", Toml.int 3),
      (lc "root", Toml.array [])]),
   (lc "resources", Toml.array [])]

/-- A manifest whose runtime requirement is exactly version 1. -/
def mvOneManifest : PackageManifest := ⟨⟨none, []⟩, ⟨1⟩, [], []⟩

theorem toBeBytes_length (n h : Nat) : (toBeBytes n h).length = n := by
  induction n generalizing h with
  | zero => rfl
  | succ n ih => simp [toBeBytes, ih]

theorem toBeBytes_lt (n h : Nat) : ∀ x ∈ toBeBytes n h, x < 256 := by
  induction n generalizing h with
  | zero => simp [toBeBytes]
  | succ n ih =>
    intro x hx
    simp only [toBeBytes, List.mem_append, List.mem_singleton] at hx
    rcases hx with hx | hx
    · exact ih _ x hx
    · omega

theorem fromBeBytes_toBeBytes (n h : Nat) (hh : h < 2 ^ (8 * n)) :
    fromBeBytes (toBeBytes n h) = h := by
  induction n generalizing h with
  | zero =>
    simp only [Nat.mul_zero, pow_zero, Nat.lt_one_iff] at hh
    simp [toBeBytes, fromBeBytes, hh]
  | succ n ih =>
    have hdiv : h / 256 < 2 ^ (8 * n) := by
      rw [Nat.div_lt_iff_lt_mul (by norm_num)]
      calc h < 2 ^ (8 * (n + 1)) := hh
        _ = 2 ^ (8 * n) * 256 := by ring
    have := ih (h / 256) hdiv
    simp only [toBeBytes, fromBeBytes] at *
    rw [List.foldl_append]
    simp only [List.foldl_cons, List.foldl_nil]
    rw [this]
    omega

theorem shr1 (x : Nat) : x >>> 1 = x / 2 := by
  rw [Nat.shiftRight_eq_div_pow]

theorem shr2 (x : Nat) : x >>> 2 = x / 4 := by
  rw [Nat.shiftRight_eq_div_pow]

theorem shr3 (x : Nat) : x >>> 3 = x / 8 := by
  rw [Nat.shiftRight_eq_div_pow]

theorem shr4 (x : Nat) : x >>> 4 = x / 16 := by
  rw [Nat.shiftRight_eq_div_pow]

theorem shr5 (x : Nat) : x >>> 5 = x / 32 := by
  rw [Nat.shiftRight_eq_div_pow]

theorem shr6 (x : Nat) : x >>> 6 = x / 64 := by
  rw [Nat.shiftRight_eq_div_pow]

theorem shr7 (x : Nat) : x >>> 7 = x / 128 := by
  rw [Nat.shiftRight_eq_div_pow]

theorem shl1_mod (x : Nat) : (x <<< 1) % 256 = x % 128 * 2 := by
  rw [Nat.shiftLeft_eq]
  show x * 2 % 256 = x % 128 * 2
  omega

theorem shl2_mod (x : Nat) : (x <<< 2) % 256 = x % 64 * 4 := by
  rw [Nat.shiftLeft_eq]
  show x * 4 % 256 = x % 64 * 4
  omega

theorem shl3_mod (x : Nat) : (x <<< 3) % 256 = x % 32 * 8 := by
  rw [Nat.shiftLeft_eq]
  show x * 8 % 256 = x % 32 * 8
  omega

theorem shl4_mod (x : Nat) : (x <<< 4) % 256 = x % 16 * 16 := by
  rw [Nat.shiftLeft_eq]
  show x * 16 % 256 = x % 16 * 16
  omega

theorem shl5_mod (x : Nat) : (x <<< 5) % 256 = x % 8 * 32 := by
  rw [Nat.shiftLeft_eq]
  show x * 32 % 256 = x % 8 * 32
  omega

theorem shl6_mod (x : Nat) : (x <<< 6) % 256 = x % 4 * 64 := by
  rw [Nat.shiftLeft_eq]
  show x * 64 % 256 = x % 4 * 64
  omega

theorem shl7_mod (x : Nat) : (x <<< 7) % 256 = x % 2 * 128 := by
  rw [Nat.shiftLeft_eq]
  show x * 128 % 256 = x % 2 * 128
  omega

theorem mask31 (x : Nat) : x &&& 31 = x % 32 := by
  have := Nat.and_pow_two_sub_one_eq_mod x 5
  norm_num at this
  exact this

theorem lorM2 : ∀ a < 128, ∀ t < 2, (a * 2 ||| t) = a * 2 + t := by decide

theorem lorM4 : ∀ a < 64, ∀ t < 4, (a * 4 ||| t) = a * 4 + t := by decide

theorem lorM8 : ∀ a < 32, ∀ t < 8, (a * 8 ||| t) = a * 8 + t := by decide

theorem lorM16 : ∀ a < 16, ∀ t < 16, (a * 16 ||| t) = a * 16 + t := by decide

theorem lorM32 : ∀ a < 8, ∀ t < 32, (a * 32 ||| t) = a * 32 + t := by decide

theorem lorM64 : ∀ a < 4, ∀ t < 64, (a * 64 ||| t) = a * 64 + t := by decide

theorem lorM128 : ∀ a < 2, ∀ t < 128, (a * 128 ||| t) = a * 128 + t := by decide

theorem lorAdd2 : ∀ a < 256, ∀ t < 2, a % 2 = 0 → (a ||| t) = a + t := by decide

theorem lorAdd4 : ∀ a < 256, ∀ t < 4, a % 4 = 0 → (a ||| t) = a + t := by decide

/-- Closed arithmetic form of one encoded chunk. -/
theorem encChunk_arith (b0 b1 b2 b3 b4 : Nat)
    (h0 : b0 < 256) (h1 : b1 < 256) (h2 : b2 < 256) (h3 : b3 < 256)
    (h4 : b4 < 256) :
    encChunk [b0, b1, b2, b3, b4] =
      [ b0 / 8,
        b0 % 8 * 4 + b1 / 64,
        b1 / 2 % 32,
        b1 % 2 * 16 + b2 / 16,
        b2 % 16 * 2 + b3 / 128,
        b3 / 4 % 32,
        b3 % 4 * 8 + b4 / 32,
        b4 % 32 ] := by
  simp only [encChunk, List.getD, List.get?, Option.getD, List.cons.injEq,
    and_true]
  refine ⟨?_, ?_, ?_, ?_, ?_, ?_, ?_, ?_⟩
  · rw [shr3]
  · rw [shl2_mod, shr6, lorM4 (b0 % 64) (by omega) (b1 / 64) (by omega), mask31]
    omega
  · rw [shr1, mask31]
  · rw [shl4_mod, shr4, lorM16 (b1 % 16) (by omega) (b2 / 16) (by omega), mask31]
    omega
  · rw [shl1_mod, shr7, lorM2 (b2 % 128) (by omega) (b3 / 128) (by omega), mask31]
    omega
  · rw [shr2, mask31]
  · rw [shl3_mod, shr5, lorM8 (b3 % 32) (by omega) (b4 / 32) (by omega), mask31]
    omega
  · rw [mask31]

/-- The alphabet character of a valid index decodes back to that index. -/
theorem b32val_getD : ∀ i < 32, b32val (b32chars.getD i ' ') = some i := by
  decide

/-- Alphabet characters are ASCII. -/
theorem b32chars_ascii : ∀ i < 32, (b32chars.getD i ' ').toNat < 128 := by
  decide

/-- Alphabet characters are not the padding character. -/
theorem b32chars_ne_pad : ∀ i < 32, ¬ (b32chars.getD i ' ' = '=') := by
  decide

/-- Decoding thirteen characters whose alphabet values are known. -/
theorem dec13 (g0 g1 g2 g3 g4 g5 g6 g7 g8 g9 g10 g11 g12 : Char)
    (c0 c1 c2 c3 c4 c5 c6 c7 c8 c9 c10 c11 c12 : Nat)
    (h0 : c0 < 32) (h1 : c1 < 32) (h2 : c2 < 32) (h3 : c3 < 32)
    (h4 : c4 < 32) (h5 : c5 < 32) (h6 : c6 < 32) (h7 : c7 < 32)
    (h8 : c8 < 32) (h9 : c9 < 32) (h10 : c10 < 32) (h11 : c11 < 32)
    (h12 : c12 < 32)
    (v0 : b32val g0 = some c0) (v1 : b32val g1 = some c1)
    (v2 : b32val g2 = some c2) (v3 : b32val g3 = some c3)
    (v4 : b32val g4 = some c4) (v5 : b32val g5 = some c5)
    (v6 : b32val g6 = some c6) (v7 : b32val g7 = some c7)
    (v8 : b32val g8 = some c8) (v9 : b32val g9 = some c9)
    (v10 : b32val g10 = some c10) (v11 : b32val g11 = some c11)
    (v12 : b32val g12 = some c12)
    (a0 : g0.toNat < 128) (a1 : g1.toNat < 128) (a2 : g2.toNat < 128)
    (a3 : g3.toNat < 128) (a4 : g4.toNat < 128) (a5 : g5.toNat < 128)
    (a6 : g6.toNat < 128) (a7 : g7.toNat < 128) (a8 : g8.toNat < 128)
    (a9 : g9.toNat < 128) (a10 : g10.toNat < 128) (a11 : g11.toNat < 128)
    (a12 : g12.toNat < 128) (e12 : ¬ g12 = '=') :
    base32_decode [g0, g1, g2, g3, g4, g5, g6, g7, g8, g9, g10, g11, g12] =
      some [ c0 % 32 * 8 + c1 / 4,
             c1 % 4 * 64 + c2 % 128 * 2 + c3 / 16,
             c3 % 16 * 16 + c4 / 2,
             c4 % 2 * 128 + c5 % 64 * 4 + c6 / 8,
             c6 % 8 * 32 + c7,
             c8 % 32 * 8 + c9 / 4,
             c9 % 4 * 64 + c10 % 128 * 2 + c11 / 16,
             c11 % 16 * 16 + c12 / 2 ] := by
  simp [base32_decode, b32padCount, chunks8, b32chunkVals, decChunk,
    a0, a1, a2, a3, a4, a5, a6, a7, a8, a9, a10, a11, a12,
    decide_eq_false e12, v0, v1, v2, v3, v4, v5, v6, v7, v8,
    v9, v10, v11, v12, List.takeWhile]
  refine ⟨?_, ?_, ?_, ?_, ?_, ?_, ?_, ?_⟩
  · rw [shl3_mod, shr2, lorM8 (c0 % 32) (by omega) (c1 / 4) (by omega)]
  · rw [shl6_mod, shl1_mod, shr4,
      lorM64 (c1 % 4) (by omega) (c2 % 128 * 2) (by omega),
      lorAdd2 (c1 % 4 * 64 + c2 % 128 * 2) (by omega) (c3 / 16) (by omega)
        (by omega)]
  · rw [shl4_mod, shr1, lorM16 (c3 % 16) (by omega) (c4 / 2) (by omega)]
  · rw [shl7_mod, shl2_mod, shr3,
      lorM128 (c4 % 2) (by omega) (c5 % 64 * 4) (by omega),
      lorAdd4 (c4 % 2 * 128 + c5 % 64 * 4) (by omega) (c6 / 8) (by omega)
        (by omega)]
  · rw [shl5_mod, lorM32 (c6 % 8) (by omega) c7 (by omega)]
  · rw [shl3_mod, shr2, lorM8 (c8 % 32) (by omega) (c9 / 4) (by omega)]
  · rw [shl6_mod, shl1_mod, shr4,
      lorM64 (c9 % 4) (by omega) (c10 % 128 * 2) (by omega),
      lorAdd2 (c9 % 4 * 64 + c10 % 128 * 2) (by omega) (c11 / 16) (by omega)
        (by omega)]
  · rw [shl4_mod, shr1, lorM16 (c11 % 16) (by omega) (c12 / 2) (by omega)]

/-- Specialisation of `dec13` to alphabet characters of valid indices. -/
theorem dec13' (c0 c1 c2 c3 c4 c5 c6 c7 c8 c9 c10 c11 c12 : Nat)
    (h0 : c0 < 32) (h1 : c1 < 32) (h2 : c2 < 32) (h3 : c3 < 32)
    (h4 : c4 < 32) (h5 : c5 < 32) (h6 : c6 < 32) (h7 : c7 < 32)
    (h8 : c8 < 32) (h9 : c9 < 32) (h10 : c10 < 32) (h11 : c11 < 32)
    (h12 : c12 < 32) :
    base32_decode
      [b32chars.getD c0 ' ', b32chars.getD c1 ' ', b32chars.getD c2 ' ',
       b32chars.getD c3 ' ', b32chars.getD c4 ' ', b32chars.getD c5 ' ',
       b32chars.getD c6 ' ', b32chars.getD c7 ' ', b32chars.getD c8 ' ',
       b32chars.getD c9 ' ', b32chars.getD c10 ' ', b32chars.getD c11 ' ',
       b32chars.getD c12 ' '] =
      some [ c0 % 32 * 8 + c1 / 4,
             c1 % 4 * 64 + c2 % 128 * 2 + c3 / 16,
             c3 % 16 * 16 + c4 / 2,
             c4 % 2 * 128 + c5 % 64 * 4 + c6 / 8,
             c6 % 8 * 32 + c7,
             c8 % 32 * 8 + c9 / 4,
             c9 % 4 * 64 + c10 % 128 * 2 + c11 / 16,
             c11 % 16 * 16 + c12 / 2 ] :=
  dec13 _ _ _ _ _ _ _ _ _ _ _ _ _ _ _ _ _ _ _ _ _ _ _ _ _ _
    h0 h1 h2 h3 h4 h5 h6 h7 h8 h9 h10 h11 h12
    (b32val_getD c0 h0) (b32val_getD c1 h1) (b32val_getD c2 h2)
    (b32val_getD c3 h3) (b32val_getD c4 h4) (b32val_getD c5 h5)
    (b32val_getD c6 h6) (b32val_getD c7 h7) (b32val_getD c8 h8)
    (b32val_getD c9 h9) (b32val_getD c10 h10) (b32val_getD c11 h11)
    (b32val_getD c12 h12)
    (b32chars_ascii c0 h0) (b32chars_ascii c1 h1) (b32chars_ascii c2 h2)
    (b32chars_ascii c3 h3) (b32chars_ascii c4 h4) (b32chars_ascii c5 h5)
    (b32chars_ascii c6 h6) (b32chars_ascii c7 h7) (b32chars_ascii c8 h8)
    (b32chars_ascii c9 h9) (b32chars_ascii c10 h10) (b32chars_ascii c11 h11)
    (b32chars_ascii c12 h12)
    (b32chars_ne_pad c12 h12)

/-- Base32 round-trip for an 8-byte input. -/
theorem b32_roundtrip_8 (b0 b1 b2 b3 b4 b5 b6 b7 : Nat)
    (h0 : b0 < 256) (h1 : b1 < 256) (h2 : b2 < 256) (h3 : b3 < 256)
    (h4 : b4 < 256) (h5 : b5 < 256) (h6 : b6 < 256) (h7 : b7 < 256) :
    base32_decode (base32_encode [b0, b1, b2, b3, b4, b5, b6, b7]) =
      some [b0, b1, b2, b3, b4, b5, b6, b7] := by
  have e1 := encChunk_arith b0 b1 b2 b3 b4 h0 h1 h2 h3 h4
  have e3 : encChunk [b5, b6, b7] =
      [b5 / 8, b5 % 8 * 4 + b6 / 64, b6 / 2 % 32, b6 % 2 * 16 + b7 / 16,
       b7 % 16 * 2 + 0 / 128, 0 / 4 % 32, 0 % 4 * 8 + 0 / 32, 0 % 32] :=
    encChunk_arith b5 b6 b7 0 0 h5 h6 h7 (by norm_num) (by norm_num)
  have henc : base32_encode [b0, b1, b2, b3, b4, b5, b6, b7] =
      [b32chars.getD (b0 / 8) ' ',
       b32chars.getD (b0 % 8 * 4 + b1 / 64) ' ',
       b32chars.getD (b1 / 2 % 32) ' ',
       b32chars.getD (b1 % 2 * 16 + b2 / 16) ' ',
       b32chars.getD (b2 % 16 * 2 + b3 / 128) ' ',
       b32chars.getD (b3 / 4 % 32) ' ',
       b32chars.getD (b3 % 4 * 8 + b4 / 32) ' ',
       b32chars.getD (b4 % 32) ' ',
       b32chars.getD (b5 / 8) ' ',
       b32chars.getD (b5 % 8 * 4 + b6 / 64) ' ',
       b32chars.getD (b6 / 2 % 32) ' ',
       b32chars.getD (b6 % 2 * 16 + b7 / 16) ' ',
       b32chars.getD (b7 % 16 * 2) ' '] := by
    simp [base32_encode, chunks5, e1, e3, List.take]
  rw [henc,
    dec13' (b0 / 8) (b0 % 8 * 4 + b1 / 64) (b1 / 2 % 32)
      (b1 % 2 * 16 + b2 / 16) (b2 % 16 * 2 + b3 / 128) (b3 / 4 % 32)
      (b3 % 4 * 8 + b4 / 32) (b4 % 32) (b5 / 8) (b5 % 8 * 4 + b6 / 64)
      (b6 / 2 % 32) (b6 % 2 * 16 + b7 / 16) (b7 % 16 * 2)
      (by omega) (by omega) (by omega) (by omega) (by omega) (by omega)
      (by omega) (by omega) (by omega) (by omega) (by omega) (by omega)
      (by omega)]
  simp only [Option.some.injEq, List.cons.injEq, and_true]
  refine ⟨?_, ?_, ?_, ?_, ?_, ?_, ?_, ?_⟩ <;> omega

/-- Round-trip of `Hash::to_base32` and `Hash::from_base32` for a `u64`. -/
theorem hash_base32_roundtrip (h : Nat) (hh : h < 2 ^ 64) :
    from_base32 (to_base32 h) = .ret (some h) := by
  have hlen := toBeBytes_length 8 h
  have hlt := toBeBytes_lt 8 h
  obtain ⟨b0, b1, b2, b3, b4, b5, b6, b7, hB⟩ :
      ∃ b0 b1 b2 b3 b4 b5 b6 b7,
        toBeBytes 8 h = [b0, b1, b2, b3, b4, b5, b6, b7] := by
    rcases hxs : toBeBytes 8 h with _ | ⟨x0, _ | ⟨x1, _ | ⟨x2, _ | ⟨x3,
      _ | ⟨x4, _ | ⟨x5, _ | ⟨x6, _ | ⟨x7, _ | ⟨x8, xs⟩⟩⟩⟩⟩⟩⟩⟩⟩ <;>
      simp [hxs] at hlen
    exact ⟨x0, x1, x2, x3, x4, x5, x6, x7, rfl⟩
  rw [hB] at hlt
  have hrt := b32_roundtrip_8 b0 b1 b2 b3 b4 b5 b6 b7
    (hlt b0 (by simp)) (hlt b1 (by simp)) (hlt b2 (by simp))
    (hlt b3 (by simp)) (hlt b4 (by simp)) (hlt b5 (by simp))
    (hlt b6 (by simp)) (hlt b7 (by simp))
  have hfrom : fromBeBytes [b0, b1, b2, b3, b4, b5, b6, b7] = h := by
    rw [← hB]
    exact fromBeBytes_toBeBytes 8 h (by norm_num at hh ⊢; omega)
  simp [from_base32, to_base32, hB, hrt, List.take, hfrom]

theorem collapseDS_cons (c : Char) (rest : List Char)
    (h : ∀ rest1, c = '/' → rest = '/' :: rest1 → False) :
    collapseDS (c :: rest) = c :: collapseDS rest := by
  rw [collapseDS.eq_def]
  split
  · rename_i rest1 heq
    rw [List.cons.injEq] at heq
    exact (h rest1 heq.1 heq.2).elim
  · rename_i heq
    rw [List.cons.injEq] at heq
    rw [heq.1, heq.2]
  · rename_i heq
    exact absurd heq (by simp)

theorem afterLastSlash_none_iff (l : List Char) :
    afterLastSlash l = none ↔ ∀ c ∈ l, c ≠ '/' := by
  induction l with
  | nil => simp [afterLastSlash]
  | cons c rest ih =>
    have key : afterLastSlash (c :: rest) = none ↔
        afterLastSlash rest = none ∧ ¬ c = '/' := by
      simp only [afterLastSlash]
      cases afterLastSlash rest with
      | some s => simp
      | none =>
        by_cases hc : c = '/' <;> simp [hc]
    rw [key, ih]
    simp only [List.mem_cons, forall_eq_or_imp]
    tauto

theorem collapseDS_id (l : List Char) (h : ∀ c ∈ l, c ≠ '/') :
    collapseDS l = l := by
  induction l using collapseDS.induct with
  | case1 rest ih => exact absurd rfl (h '/' (by simp))
  | case2 c rest hne ih =>
    rw [collapseDS_cons c rest hne]
    rw [ih (fun x hx => h x (List.mem_cons_of_mem _ hx))]
  | case3 => rfl

theorem afterLastSlash_collapseDS (l : List Char) :
    afterLastSlash (collapseDS l) = afterLastSlash l := by
  induction l using collapseDS.induct with
  | case1 rest ih =>
    show afterLastSlash ('/' :: collapseDS rest) =
      afterLastSlash ('/' :: '/' :: rest)
    simp only [afterLastSlash, ih]
    cases hr : afterLastSlash rest with
    | some s => simp
    | none =>
      simp [collapseDS_id rest ((afterLastSlash_none_iff rest).mp hr)]
  | case2 c rest hne ih =>
    rw [collapseDS_cons c rest hne]
    simp only [afterLastSlash, ih]
    cases hr : afterLastSlash rest with
    | some s => simp
    | none =>
      by_cases hc : c = '/'
      · simp only [if_pos hc]
        rw [collapseDS_id rest ((afterLastSlash_none_iff rest).mp hr)]
      · simp [hc]
  | case3 => rfl

theorem lastComponent_none_iff (l : List Char) :
    lastComponent l = none ↔ ∀ c ∈ l, isSepChar c = false := by
  induction l with
  | nil => simp [lastComponent]
  | cons c rest ih =>
    have key : lastComponent (c :: rest) = none ↔
        lastComponent rest = none ∧ isSepChar c = false := by
      simp only [lastComponent]
      cases lastComponent rest with
      | some s => simp
      | none =>
        by_cases hc : isSepChar c = true <;> simp [hc]
    rw [key, ih]
    simp only [List.mem_cons, forall_eq_or_imp]
    tauto

theorem map_bslash_id (l : List Char) (h : ∀ c ∈ l, isSepChar c = false) :
    l.map bslashToSlash = l := by
  induction l with
  | nil => rfl
  | cons c rest ih =>
    have hc := h c (by simp)
    simp only [isSepChar, Bool.or_eq_false_iff, decide_eq_false_iff_not] at hc
    simp only [List.map_cons, bslashToSlash, if_neg hc.2, List.cons.injEq,
      true_and]
    exact ih (fun x hx => h x (List.mem_cons_of_mem _ hx))

theorem afterLastSlash_map (l : List Char) :
    afterLastSlash (l.map bslashToSlash) = lastComponent l := by
  induction l with
  | nil => rfl
  | cons c rest ih =>
    simp only [List.map_cons, afterLastSlash, lastComponent, ih]
    cases hr : lastComponent rest with
    | some s => simp
    | none =>
      have hrest := (lastComponent_none_iff rest).mp hr
      by_cases hc : c = '\\'
      · simp only [bslashToSlash, if_pos hc, hc]
        rw [map_bslash_id rest hrest]
        simp [isSepChar]
      · simp only [bslashToSlash, if_neg hc]
        by_cases hcs : c = '/'
        · simp only [if_pos hcs, hcs]
          rw [map_bslash_id rest hrest]
          simp [isSepChar]
        · simp [hcs, isSepChar, hc]

/-- The inferred format of a URI is exactly what the specification's rules
compute from the component after the last path separator. -/
theorem from_uri_eq_specFormat (uri : List Char) :
    from_uri uri = specFormatOfUri uri := by
  simp only [from_uri, specFormatOfUri]
  rw [afterLastSlash_collapseDS, afterLastSlash_map]
  cases lastComponent uri with
  | some fname => rfl
  | none => rfl

/-! ## Round-trip lemmas for the codecs -/

theorem assocGet_assocSet_eq {β : Type} (l : List (List Char × β)) (k : List Char)
    (v : β) : assocGet (assocSet l k v) k = some v := by
  induction l with
  | nil => simp [assocSet, assocGet]
  | cons p rest ih =>
    by_cases h : p.1 = k
    · simp [assocSet, assocGet, h]
    · simp [assocSet, assocGet, h, ih]

theorem assocGet_assocSet_ne {β : Type} (l : List (List Char × β))
    (k k' : List Char) (v : β) (h : k ≠ k') :
    assocGet (assocSet l k v) k' = assocGet l k' := by
  induction l with
  | nil => simp [assocSet, assocGet, h]
  | cons p rest ih =>
    by_cases hp : p.1 = k
    · simp [assocSet, assocGet, hp, h]
    · simp [assocSet, assocGet, hp, ih]

theorem assocSet_append {β : Type} (l : List (List Char × β)) (k : List Char)
    (v : β) (h : k ∉ l.map Prod.fst) : assocSet l k v = l ++ [(k, v)] := by
  induction l with
  | nil => rfl
  | cons p rest ih =>
    simp only [List.map_cons, List.mem_cons] at h
    push_neg at h
    simp only [assocSet, if_neg (Ne.symm h.1), List.cons_append,
      List.cons.injEq, true_and]
    exact ih h.2

theorem foldl_assocSet_append (l : List (List Char × Toml)) :
    ∀ acc : TomlTable, (l.map Prod.fst).Nodup →
    (∀ k ∈ l.map Prod.fst, k ∉ acc.map Prod.fst) →
    l.foldl (fun acc p => assocSet acc p.1 p.2) acc = acc ++ l := by
  induction l with
  | nil => intro acc _ _; simp
  | cons p rest ih =>
    intro acc hnd hdisj
    simp only [List.map_cons, List.nodup_cons] at hnd
    simp only [List.foldl_cons]
    rw [assocSet_append acc p.1 p.2 (hdisj p.1 (by simp))]
    have hd2 : ∀ k ∈ rest.map Prod.fst,
        k ∉ (acc ++ [(p.1, p.2)]).map Prod.fst := by
      intro k hk
      simp only [List.map_append, List.mem_append, List.map_cons,
        List.map_nil, List.mem_singleton, not_or]
      exact ⟨hdisj k (by simp [hk]), fun hke => hnd.1 (hke ▸ hk)⟩
    rw [ih (acc ++ [(p.1, p.2)]) hnd.2 hd2]
    simp

theorem tableOfPairs_nodup (l : List (List Char × Toml))
    (h : (l.map Prod.fst).Nodup) : tableOfPairs l = l := by
  have := foldl_assocSet_append l [] h (fun k _ => by simp)
  simpa [tableOfPairs] using this

theorem u32cast_coe (n : Nat) (h : n < 4294967296) :
    u32cast (n : Int) = n := by
  unfold u32cast
  rw [Int.emod_eq_of_lt (Int.natCast_nonneg n) (by exact_mod_cast h)]
  simp

theorem u64cast_i64ofU64 (n : Nat) (h : n < 18446744073709551616) :
    u64cast (i64ofU64 n) = n := by
  unfold u64cast i64ofU64
  by_cases h2 : n < 9223372036854775808 <;> simp [h2] <;> omega

theorem formatFromStr_display (f : ResourceFormat) :
    resourceFormatFromStr (displayResourceFormat f) = .ok f := by
  rcases f with _ | _ | mf | af
  · decide
  · decide
  · cases mf <;> decide
  · cases af <;> decide

theorem readIdTable_roundtrip (l : List (List Char × Nat))
    (h : ∀ p ∈ l, p.2 < 4294967296) :
    readIdTable (l.map fun p => (p.1, Toml.int (p.2 : Int))) = some l := by
  induction l with
  | nil => rfl
  | cons p rest ih =>
    simp only [List.map_cons, readIdTable, Toml.as_integer]
    rw [ih (fun q hq => h q (List.mem_cons_of_mem _ hq))]
    simp [u32cast_coe p.2 (h p (by simp))]

theorem readRootIds_roundtrip (l : List Nat) (h : ∀ i ∈ l, i < 4294967296) :
    readRootIds (l.map fun id : Nat => Toml.int (id : Int)) = some l := by
  induction l with
  | nil => rfl
  | cons i rest ih =>
    simp only [List.map_cons, readRootIds, Toml.as_integer]
    rw [ih (fun q hq => h q (List.mem_cons_of_mem _ hq))]
    simp [u32cast_coe i (h i (by simp))]

theorem panics_ret_bind {α β : Type} (a : α) (f : α → Panics β) :
    (Panics.ret a).bind f = f a := rfl

/-- One encoded resource decodes back to itself. -/
theorem parse_resource_lock_roundtrip (r : ResourceLock)
    (hh : r.lock.hash < 18446744073709551616)
    (hs : r.lock.size < 18446744073709551616)
    (hin : ∀ ins, r.inputs = some ins →
      (ins.map Prod.fst).Nodup ∧ ∀ p ∈ ins, p.2 < 4294967296)
    (hout : ∀ outs, r.outputs = some outs →
      (outs.map Prod.fst).Nodup ∧ ∀ p ∈ outs, p.2 < 4294967296) :
    parse_resource_lock (encode_resource_lock r) = .ret (.ok r) := by
  rcases r with ⟨url, fmt, ⟨hsh, size⟩, inputs, outputs⟩
  simp only at hh hs hin hout
  rcases inputs with _ | ins <;> rcases outputs with _ | outs
  · simp [encode_resource_lock, parse_resource_lock, assocGet, assocSet,
      Toml.as_str, Toml.as_table, Toml.as_integer, formatFromStr_display,
      hash_base32_roundtrip hsh hh, u64cast_i64ofU64 size hs,
      Panics.bind, bind, pure, lc]
  · obtain ⟨hnd, hbd⟩ := hout outs rfl
    have htp : tableOfPairs (outs.map fun p => (p.1, Toml.int (p.2 : Int)))
        = outs.map fun p => (p.1, Toml.int (p.2 : Int)) :=
      tableOfPairs_nodup _ (by simpa [List.map_map, Function.comp] using hnd)
    simp [encode_resource_lock, parse_resource_lock, assocGet, assocSet,
      Toml.as_str, Toml.as_table, Toml.as_integer, formatFromStr_display,
      hash_base32_roundtrip hsh hh, u64cast_i64ofU64 size hs,
      Panics.bind, bind, pure, lc, htp, readIdTable_roundtrip outs hbd]
  · obtain ⟨hnd, hbd⟩ := hin ins rfl
    have htp : tableOfPairs (ins.map fun p => (p.1, Toml.int (p.2 : Int)))
        = ins.map fun p => (p.1, Toml.int (p.2 : Int)) :=
      tableOfPairs_nodup _ (by simpa [List.map_map, Function.comp] using hnd)
    simp [encode_resource_lock, parse_resource_lock, assocGet, assocSet,
      Toml.as_str, Toml.as_table, Toml.as_integer, formatFromStr_display,
      hash_base32_roundtrip hsh hh, u64cast_i64ofU64 size hs,
      Panics.bind, bind, pure, lc, htp, readIdTable_roundtrip ins hbd]
  · obtain ⟨hndI, hbdI⟩ := hin ins rfl
    obtain ⟨hndO, hbdO⟩ := hout outs rfl
    have htpI : tableOfPairs (ins.map fun p => (p.1, Toml.int (p.2 : Int)))
        = ins.map fun p => (p.1, Toml.int (p.2 : Int)) :=
      tableOfPairs_nodup _ (by simpa [List.map_map, Function.comp] using hndI)
    have htpO : tableOfPairs (outs.map fun p => (p.1, Toml.int (p.2 : Int)))
        = outs.map fun p => (p.1, Toml.int (p.2 : Int)) :=
      tableOfPairs_nodup _ (by simpa [List.map_map, Function.comp] using hndO)
    simp [encode_resource_lock, parse_resource_lock, assocGet, assocSet,
      Toml.as_str, Toml.as_table, Toml.as_integer, formatFromStr_display,
      hash_base32_roundtrip hsh hh, u64cast_i64ofU64 size hs,
      Panics.bind, bind, pure, lc, htpI, htpO,
      readIdTable_roundtrip ins hbdI, readIdTable_roundtrip outs hbdO]

/-- The encoded resources array decodes back to the resource list. -/
theorem readResources_roundtrip (rs : List ResourceLock)
    (h : ∀ r ∈ rs, parse_resource_lock (encode_resource_lock r) = .ret (.ok r)) :
    readResources (rs.map fun r => Toml.table (encode_resource_lock r)) =
      .ret (.ok rs) := by
  induction rs with
  | nil => rfl
  | cons r rest ih =>
    simp only [List.map_cons, readResources, Toml.as_table,
      h r (by simp), Panics.bind, bind, pure, Except.map,
      ih (fun q hq => h q (List.mem_cons_of_mem _ hq))]

/-- Encoding a lock file and decoding the result restores it, for
well-formed lock files (ids fit in `u32`, hashes and sizes in `u64`,
input/output names unique per resource). -/
theorem lock_roundtrip (lf : LockFile)
    (hroot : ∀ i ∈ lf.lock.root, i < 4294967296)
    (hres : ∀ r ∈ lf.resources,
      r.lock.hash < 18446744073709551616 ∧
      r.lock.size < 18446744073709551616 ∧
      (∀ ins, r.inputs = some ins →
        (ins.map Prod.fst).Nodup ∧ ∀ p ∈ ins, p.2 < 4294967296) ∧
      (∀ outs, r.outputs = some outs →
        (outs.map Prod.fst).Nodup ∧ ∀ p ∈ outs, p.2 < 4294967296)) :
    lock_try_from (lock_to_toml lf) = .ret (.ok lf) := by
  rcases lf with ⟨⟨root⟩, resources⟩
  have hrs : ∀ r ∈ resources,
      parse_resource_lock (encode_resource_lock r) = .ret (.ok r) := by
    intro r hr
    obtain ⟨h1, h2, h3, h4⟩ := hres r hr
    exact parse_resource_lock_roundtrip r h1 h2 h3 h4
  simp [lock_to_toml, lock_try_from, assocGet, assocSet, Toml.as_table,
    Toml.as_integer, Toml.as_array, u16cast, lc,
    readRootIds_roundtrip root (by simpa using hroot),
    readResources_roundtrip resources hrs, Panics.bind, bind, pure,
    Except.map]

/-! ### Manifest round-trip -/

/-- One encoded manifest resource decodes back to itself. -/
theorem parse_resource_roundtrip (ri : ResourceInfo)
    (hh : ∀ h0, ri.hash = some h0 → h0 < 18446744073709551616) :
    parse_resource (encode_resource ri) = .ret (.ok ri) := by
  rcases ri with ⟨uri, fmt, hash⟩
  rcases hash with _ | h0
  · simp [encode_resource, parse_resource, assocGet, assocSet, Toml.as_str,
      formatFromStr_display, Panics.bind, bind, pure, lc]
  · have hb := hh h0 rfl
    simp [encode_resource, parse_resource, assocGet, assocSet, Toml.as_str,
      formatFromStr_display, hash_base32_roundtrip h0 hb,
      Panics.bind, bind, pure, lc]

/-- The encoded entries of an `inputs`/`outputs` table decode back. -/
theorem parse_entries_roundtrip (field : List Char)
    (l : List (List Char × ResourceInfo))
    (h : ∀ p ∈ l, parse_resource (encode_resource p.2) = .ret (.ok p.2)) :
    parse_entries field
      (l.map fun p => (p.1, Toml.table (encode_resource p.2))) =
      .ret (.ok l) := by
  induction l with
  | nil => rfl
  | cons p rest ih =>
    simp only [List.map_cons, parse_entries, parse_entry, Toml.as_str,
      Toml.as_table, h p (by simp), Panics.bind, bind, pure, Except.map,
      ih (fun q hq => h q (List.mem_cons_of_mem _ hq))]

theorem authors_fold_roundtrip (l : List (List Char)) :
    (l.map (Toml.as_str ∘ Toml.str)).foldr
      (fun o acc => o.bind fun x => acc.map (x :: ·)) (some []) = some l := by
  induction l with
  | nil => rfl
  | cons a rest ih =>
    simp only [List.map_cons, List.foldr_cons, ih, Function.comp_apply,
      Toml.as_str]
    simp

theorem pit_format (p : PackageInfo) :
    assocGet (package_info_table p) (lc "format") = some (.int 1) := by
  rcases p with ⟨desc, authors⟩
  rcases desc with _ | d <;> by_cases ha : authors.isEmpty <;>
    simp [package_info_table, assocGet, assocSet, lc, ha]

theorem decode_description_pit (p : PackageInfo) :
    decode_description (package_info_table p) = .ok p.description := by
  rcases p with ⟨desc, authors⟩
  rcases desc with _ | d <;> by_cases ha : authors.isEmpty <;>
    simp [decode_description, package_info_table, assocGet, assocSet,
      Toml.as_str, lc, ha]

theorem decode_authors_pit (p : PackageInfo) :
    decode_authors (package_info_table p) = .ok p.authors := by
  rcases p with ⟨desc, authors⟩
  rcases desc with _ | d <;> rcases hA : authors with _ | ⟨a0, as⟩ <;>
    simp [decode_authors, package_info_table, assocGet, assocSet,
      Toml.as_str, Toml.as_array, lc, authors_fold_roundtrip]

theorem mt_package (m : PackageManifest) :
    assocGet (manifest_to_toml m) (lc "package") =
      some (.table (package_info_table m.package)) := by
  by_cases h1 : m.runtime.is_empty <;>
    by_cases h2 : m.inputs.isEmpty <;>
    by_cases h3 : m.outputs.isEmpty <;>
    simp [manifest_to_toml, assocGet, assocSet, lc, h1, h2, h3]

theorem mt_runtime (m : PackageManifest) :
    assocGet (manifest_to_toml m) (lc "runtime") =
      if m.runtime.is_empty then none
      else some (.table [(lc "minimal_version",
        .int (m.runtime.minimal_version : Int))]) := by
  by_cases h1 : m.runtime.is_empty <;>
    by_cases h2 : m.inputs.isEmpty <;>
    by_cases h3 : m.outputs.isEmpty <;>
    simp [manifest_to_toml, assocGet, assocSet, lc, h1, h2, h3]

theorem mt_inputs (m : PackageManifest) :
    assocGet (manifest_to_toml m) (lc "inputs") =
      if m.inputs.isEmpty then none
      else some (.table (tableOfPairs (m.inputs.map
        fun p => (p.1, Toml.table (encode_resource p.2))))) := by
  by_cases h1 : m.runtime.is_empty <;>
    by_cases h2 : m.inputs.isEmpty <;>
    by_cases h3 : m.outputs.isEmpty <;>
    simp [manifest_to_toml, assocGet, assocSet, lc, h1, h2, h3]

theorem mt_outputs (m : PackageManifest) :
    assocGet (manifest_to_toml m) (lc "outputs") =
      if m.outputs.isEmpty then none
      else some (.table (tableOfPairs (m.outputs.map
        fun p => (p.1, Toml.table (encode_resource p.2))))) := by
  by_cases h1 : m.runtime.is_empty <;>
    by_cases h2 : m.inputs.isEmpty <;>
    by_cases h3 : m.outputs.isEmpty <;>
    simp [manifest_to_toml, assocGet, assocSet, lc, h1, h2, h3]

theorem decode_runtime_mt (m : PackageManifest)
    (h1 : m.runtime.minimal_version ≠ 1)
    (h2 : m.runtime.minimal_version < 4294967296) :
    decode_runtime (manifest_to_toml m) = .ok m.runtime.minimal_version := by
  rw [decode_runtime.eq_def, mt_runtime m]
  by_cases he : m.runtime.is_empty
  · simp only [he, if_pos]
    unfold RuntimeInfo.is_empty at he
    simp only [decide_eq_true_eq] at he
    have : m.runtime.minimal_version = 0 := by omega
    rw [this]
  · simp [he, Toml.as_table, Toml.as_integer, assocGet, u32cast_coe _ h2]

theorem decode_entries_mt_inputs (m : PackageManifest) (bad : List Char)
    (hnd : (m.inputs.map Prod.fst).Nodup)
    (hh : ∀ p ∈ m.inputs, ∀ h0, p.2.hash = some h0 →
      h0 < 18446744073709551616) :
    decode_entries_field (manifest_to_toml m) (lc "inputs")
      (lc "inputs") bad = .ret (.ok m.inputs) := by
  rw [decode_entries_field.eq_def, mt_inputs m]
  by_cases he : m.inputs.isEmpty
  · simp only [he, if_pos]
    rw [List.isEmpty_iff] at he
    simp [he, pure]
  · have htp : tableOfPairs (m.inputs.map
        fun p => (p.1, Toml.table (encode_resource p.2))) =
        m.inputs.map fun p => (p.1, Toml.table (encode_resource p.2)) :=
      tableOfPairs_nodup _ (by simpa [List.map_map, Function.comp] using hnd)
    simp only [he, if_neg, Bool.false_eq_true, not_false_iff, Toml.as_table,
      htp]
    exact parse_entries_roundtrip bad m.inputs
      (fun p hp => parse_resource_roundtrip p.2 (hh p hp))

theorem decode_entries_mt_outputs (m : PackageManifest) (bad : List Char)
    (hnd : (m.outputs.map Prod.fst).Nodup)
    (hh : ∀ p ∈ m.outputs, ∀ h0, p.2.hash = some h0 →
      h0 < 18446744073709551616) :
    decode_entries_field (manifest_to_toml m) (lc "outputs")
      (lc "outputs") bad = .ret (.ok m.outputs) := by
  rw [decode_entries_field.eq_def, mt_outputs m]
  by_cases he : m.outputs.isEmpty
  · simp only [he, if_pos]
    rw [List.isEmpty_iff] at he
    simp [he, pure]
  · have htp : tableOfPairs (m.outputs.map
        fun p => (p.1, Toml.table (encode_resource p.2))) =
        m.outputs.map fun p => (p.1, Toml.table (encode_resource p.2)) :=
      tableOfPairs_nodup _ (by simpa [List.map_map, Function.comp] using hnd)
    simp only [he, if_neg, Bool.false_eq_true, not_false_iff, Toml.as_table,
      htp]
    exact parse_entries_roundtrip bad m.outputs
      (fun p hp => parse_resource_roundtrip p.2 (hh p hp))

/-- Encoding a manifest and decoding the result restores it, for
well-formed manifests whose `runtime.minimal_version` is not `1` (a
minimal version of `1` is dropped by `RuntimeInfo::is_empty` and decodes
as `0`). -/
theorem manifest_roundtrip (m : PackageManifest)
    (hmv : m.runtime.minimal_version ≠ 1)
    (hmvB : m.runtime.minimal_version < 4294967296)
    (hndI : (m.inputs.map Prod.fst).Nodup)
    (hndO : (m.outputs.map Prod.fst).Nodup)
    (hhI : ∀ p ∈ m.inputs, ∀ h0, p.2.hash = some h0 →
      h0 < 18446744073709551616)
    (hhO : ∀ p ∈ m.outputs, ∀ h0, p.2.hash = some h0 →
      h0 < 18446744073709551616) :
    manifest_try_from (manifest_to_toml m) = .ret (.ok m) := by
  rw [manifest_try_from.eq_def]
  simp only [mt_package m, Toml.as_table, Option.bind_some, Option.some_bind,
    pit_format m.package, Toml.as_integer,
    decode_description_pit m.package, decode_authors_pit m.package,
    decode_runtime_mt m hmv hmvB,
    decode_entries_mt_inputs m (lc "inputs[]") hndI hhI,
    decode_entries_mt_outputs m (lc "outputs[]") hndO hhO,
    Panics.bind, bind, pure]
  norm_num [u16cast]

/-! ### Association-list facts used by the resolver proofs -/

theorem assocGet_assocSet {α β : Type} [DecidableEq α]
    (l : List (α × β)) (a t : α) (b : β) :
    assocGet (assocSet l a b) t = if a = t then some b else assocGet l t := by
  induction l with
  | nil =>
    by_cases h : a = t <;> simp [assocSet, assocGet, h]
  | cons p rest ih =>
    by_cases hp : p.1 = a
    · by_cases h : a = t <;>
        simp [assocSet, assocGet, hp, h, hp.symm ▸ h]
    · by_cases ht : p.1 = t
      · have h1 : ¬ a = t := fun he => hp (he ▸ ht)
        have h2 : ¬ t = a := fun he => h1 he.symm
        simp [assocSet, assocGet, hp, ht, h1, h2]
      · simp [assocSet, assocGet, hp, ht, ih]

theorem assocGet_isSome_assocSet {α β : Type} [DecidableEq α]
    (l : List (α × β)) (a t : α) (b : β)
    (h : (assocGet l t).isSome) : (assocGet (assocSet l a b) t).isSome := by
  rw [assocGet_assocSet]
  by_cases ha : a = t <;> simp [ha, h]

theorem assocGet_some_of_mem_set {α β : Type} [DecidableEq α]
    (l : List (α × β)) (a : α) (b : β) :
    assocGet (assocSet l a b) a = some b := by
  rw [assocGet_assocSet]
  simp

/-- What the package spawn phase does to the state: only `assigned` and
`requested` change; the new requested keys are exactly the task keys; every
pending package's temp hash ends up assigned to a requested key. -/
theorem packagesSpawn_spec (pend : List (List Char × Nat × Bool)) (st : RState) :
    (packagesSpawn pend st).1.packages = st.packages ∧
    (packagesSpawn pend st).1.store = st.store ∧
    (packagesSpawn pend st).1.lockResources = st.lockResources ∧
    (packagesSpawn pend st).1.lockRoot = st.lockRoot ∧
    (packagesSpawn pend st).1.residx = st.residx ∧
    (packagesSpawn pend st).1.refs = st.refs ∧
    (packagesSpawn pend st).1.nextTemp = st.nextTemp ∧
    (packagesSpawn pend st).1.requested =
      st.requested ++ (packagesSpawn pend st).2.map (fun task => task.2.2.1) ∧
    (∀ t, (assocGet st.assigned t).isSome →
      (assocGet (packagesSpawn pend st).1.assigned t).isSome) ∧
    (∀ t k, assocGet (packagesSpawn pend st).1.assigned t = some k →
      assocGet st.assigned t = some k ∨
      k ∈ (packagesSpawn pend st).1.requested) ∧
    (∀ e ∈ pend, ∃ k,
      assocGet (packagesSpawn pend st).1.assigned e.2.1 = some k ∧
      k ∈ (packagesSpawn pend st).1.requested) := by
  induction pend generalizing st with
  | nil =>
    refine ⟨rfl, rfl, rfl, rfl, rfl, rfl, rfl, by simp [packagesSpawn],
      fun t h => h, fun t k h => .inl h, by simp⟩
  | cons e rest ih =>
    obtain ⟨url, temp, isRoot⟩ := e
    rw [packagesSpawn.eq_def]
    simp only
    by_cases hreq :
        (normalize_url (if ¬ (lc "/package.json").isSuffixOf url = true
          then url ++ lc "/package.json" else url), ResourceFormat.package) ∈
        st.requested
    all_goals
      generalize hkey : (normalize_url
        (if ¬ (lc "/package.json").isSuffixOf url = true
          then url ++ lc "/package.json" else url),
        ResourceFormat.package) = key at hreq ⊢
    · simp only [if_pos hreq]
      obtain ⟨c1, c2, c3, c4, c5, c6, c7, c8, c9, c10, c11⟩ :=
        ih { st with assigned := assocSet st.assigned temp key }
      refine ⟨c1, c2, c3, c4, c5, c6, c7, c8, ?_, ?_, ?_⟩
      · intro t h
        exact c9 t (assocGet_isSome_assocSet _ _ _ _ h)
      · intro t k h
        rcases c10 t k h with h' | h'
        · rw [assocGet_assocSet] at h'
          by_cases ht : temp = t
          · rw [if_pos ht] at h'
            injection h' with h''
            right
            rw [c8]
            exact List.mem_append_left _ (h'' ▸ hreq)
          · rw [if_neg ht] at h'
            exact .inl h'
        · exact .inr h'
      · intro e he
        rcases List.mem_cons.mp he with he | he
        · subst he
          simp only
          have hsome : (assocGet (packagesSpawn rest
              { st with assigned := assocSet st.assigned temp key
              }).1.assigned temp).isSome := by
            refine c9 temp ?_
            show (assocGet (assocSet st.assigned temp key) temp).isSome
            rw [assocGet_some_of_mem_set]
            rfl
          obtain ⟨k, hk⟩ := Option.isSome_iff_exists.mp hsome
          rcases c10 temp k hk with h' | h'
          · rw [assocGet_assocSet, if_pos rfl] at h'
            injection h' with h''
            refine ⟨k, hk, ?_⟩
            rw [c8]
            exact List.mem_append_left _ (h'' ▸ hreq)
          · exact ⟨k, hk, h'⟩
        · exact c11 e he
    · simp only [if_neg hreq]
      obtain ⟨c1, c2, c3, c4, c5, c6, c7, c8, c9, c10, c11⟩ :=
        ih { st with
          assigned := assocSet st.assigned temp key
          requested := st.requested ++ [key] }
      refine ⟨c1, c2, c3, c4, c5, c6, c7, ?_, ?_, ?_, ?_⟩
      · rw [c8]
        simp
      · intro t h
        exact c9 t (assocGet_isSome_assocSet _ _ _ _ h)
      · intro t k h
        rcases c10 t k h with h' | h'
        · rw [assocGet_assocSet] at h'
          by_cases ht : temp = t
          · rw [if_pos ht] at h'
            injection h' with h''
            right
            rw [c8]
            refine List.mem_append_left _ ?_
            simp [h'']
          · rw [if_neg ht] at h'
            exact .inl h'
        · exact .inr h'
      · intro e he
        rcases List.mem_cons.mp he with he | he
        · subst he
          simp only
          have hsome : (assocGet (packagesSpawn rest
              { st with
                assigned := assocSet st.assigned temp key
                requested := st.requested ++ [key]
              }).1.assigned temp).isSome := by
            refine c9 temp ?_
            show (assocGet (assocSet st.assigned temp key) temp).isSome
            rw [assocGet_some_of_mem_set]
            rfl
          obtain ⟨k, hk⟩ := Option.isSome_iff_exists.mp hsome
          rcases c10 temp k hk with h' | h'
          · rw [assocGet_assocSet, if_pos rfl] at h'
            injection h' with h''
            refine ⟨k, hk, ?_⟩
            rw [c8]
            refine List.mem_append_left _ ?_
            simp [h'']
          · exact ⟨k, hk, h'⟩
        · exact c11 e he

theorem assocGet_mem {α β : Type} [DecidableEq α] (l : List (α × β)) (k : α)
    (v : β) (h : assocGet l k = some v) : (k, v) ∈ l := by
  induction l with
  | nil => simp [assocGet] at h
  | cons p rest ih =>
    obtain ⟨a, b⟩ := p
    simp only [assocGet] at h
    by_cases ha : a = k
    · rw [if_pos ha] at h
      injection h with h'
      subst ha; subst h'
      exact List.mem_cons_self _ _
    · rw [if_neg ha] at h
      exact List.mem_cons_of_mem _ (ih h)

theorem mem_assocSet {α β : Type} [DecidableEq α] (l : List (α × β)) (a : α)
    (b : β) (p : α × β) (h : p ∈ assocSet l a b) : p ∈ l ∨ p = (a, b) := by
  induction l with
  | nil =>
    simp [assocSet] at h
    exact .inr h
  | cons q rest ih =>
    obtain ⟨k, w⟩ := q
    simp only [assocSet] at h
    by_cases hk : k = a
    · rw [if_pos hk] at h
      rcases List.mem_cons.mp h with h | h
      · exact .inr (by rw [h, hk])
      · exact .inl (List.mem_cons_of_mem _ h)
    · rw [if_neg hk] at h
      rcases List.mem_cons.mp h with h | h
      · exact .inl (h ▸ List.mem_cons_self _ _)
      · rcases ih h with h' | h'
        · exact .inl (List.mem_cons_of_mem _ h')
        · exact .inr h'

theorem keys_assocSet_self {α β : Type} [DecidableEq α] (l : List (α × β))
    (a : α) (b : β) : a ∈ (assocSet l a b).map Prod.fst := by
  induction l with
  | nil => simp [assocSet]
  | cons q rest ih =>
    obtain ⟨k, w⟩ := q
    simp only [assocSet]
    by_cases hk : k = a
    · rw [if_pos hk]
      simp [hk]
    · rw [if_neg hk]
      simp only [List.map_cons, List.mem_cons]
      exact .inr ih

theorem keys_assocSet_mono {α β : Type} [DecidableEq α] (l : List (α × β))
    (a x : α) (b : β) (h : x ∈ l.map Prod.fst) :
    x ∈ (assocSet l a b).map Prod.fst := by
  induction l with
  | nil => simp at h
  | cons q rest ih =>
    obtain ⟨k, w⟩ := q
    simp only [List.map_cons, List.mem_cons] at h
    simp only [assocSet]
    by_cases hk : k = a
    · rw [if_pos hk]
      simp only [List.map_cons, List.mem_cons]
      exact h.imp id (fun h' => by simpa using h')
    · rw [if_neg hk]
      simp only [List.map_cons, List.mem_cons]
      exact h.imp id ih

/-- What one `enqueue_refs` pass does: `nextTemp` advances, a block of
references pointing at `idx` with direction `b` is appended, one reference
per declared entry, and every emitted download task's resource info comes
from the declared entries. -/
theorem enqueueRefs_spec (idx : Nat) (b : Bool) (ru : List Char)
    (l : List (List Char × ResourceInfo)) (st : RState) :
    ∃ R,
      (enqueueRefs idx b ru l st).1.packages = st.packages ∧
      (enqueueRefs idx b ru l st).1.store = st.store ∧
      (enqueueRefs idx b ru l st).1.lockResources = st.lockResources ∧
      (enqueueRefs idx b ru l st).1.lockRoot = st.lockRoot ∧
      (enqueueRefs idx b ru l st).1.requested = st.requested ∧
      (enqueueRefs idx b ru l st).1.residx = st.residx ∧
      (enqueueRefs idx b ru l st).1.assigned = st.assigned ∧
      (enqueueRefs idx b ru l st).1.refs = st.refs ++ R ∧
      (∀ rf ∈ R, rf.2.2.1 = idx ∧ rf.2.2.2 = b) ∧
      (∀ p ∈ l, ∃ t, (t, p.1, idx, b) ∈ R) ∧
      (∀ rf ∈ R, ∃ e ∈ (enqueueRefs idx b ru l st).2, e.1 = rf.1) ∧
      (∀ e ∈ (enqueueRefs idx b ru l st).2, ∃ p ∈ l, e.2.2 = p.2) := by
  induction l generalizing st with
  | nil =>
    exact ⟨[], rfl, rfl, rfl, rfl, rfl, rfl, rfl, by simp [enqueueRefs],
      by simp, by simp, by simp, by simp [enqueueRefs]⟩
  | cons e rest ih =>
    obtain ⟨name, ri⟩ := e
    rw [enqueueRefs.eq_def]
    simp only
    obtain ⟨R', c1, c2, c3, c4, c5, c6, c7, c8, c9, c10, c11, c12⟩ :=
      ih { st with
        nextTemp := st.nextTemp + 1
        refs := st.refs ++ [(st.nextTemp, name, idx, b)] }
    refine ⟨(st.nextTemp, name, idx, b) :: R', c1, c2, c3, c4, c5, c6, c7,
      ?_, ?_, ?_, ?_, ?_⟩
    · rw [c8]
      simp
    · intro rf hrf
      rcases List.mem_cons.mp hrf with h | h
      · subst h; exact ⟨rfl, rfl⟩
      · exact c9 rf h
    · intro p hp
      rcases List.mem_cons.mp hp with h | h
      · exact ⟨st.nextTemp, by rw [h]; exact List.mem_cons_self _ _⟩
      · obtain ⟨t, ht⟩ := c10 p h
        exact ⟨t, List.mem_cons_of_mem _ ht⟩
    · intro rf hrf
      rcases List.mem_cons.mp hrf with h | h
      · exact ⟨(st.nextTemp, ru, ri), List.mem_cons_self _ _, by rw [h]⟩
      · obtain ⟨e', he', he2⟩ := c11 rf h
        exact ⟨e', List.mem_cons_of_mem _ he', he2⟩
    · intro e he
      rcases List.mem_cons.mp he with h | h
      · exact ⟨(name, ri), List.mem_cons_self _ _, by rw [h]⟩
      · obtain ⟨p, hp, hp2⟩ := c12 e h
        exact ⟨p, List.mem_cons_of_mem _ hp, hp2⟩

/-- What the package ingest phase does on success: `packages`, `requested`
and `assigned` are untouched; new package locks with empty maps are
appended; every task key resolves through `residx` to an in-range index;
`lockRoot` only grows by in-range indices; a block of references whose
temps all belong to emitted resource tasks is appended; every new lock is
a package lock whose manifest entries all have references in the final
`refs`; and (when no manifest declares a hash) every emitted resource task
carries no declared hash. -/
theorem packagesIngest_spec (w : World)
    (tasks : List (List Char × List Char × (List Char × ResourceFormat) × Bool)) :
    ∀ (st st' : RState) (E : List (Nat × List Char × ResourceInfo)),
    packagesIngest w tasks st = .ok (st', E) →
      st'.packages = st.packages ∧
      st'.requested = st.requested ∧
      st'.assigned = st.assigned ∧
      (∃ L, st'.lockResources = st.lockResources ++ L ∧
        ∀ r ∈ L, r.inputs = some [] ∧ r.outputs = some []) ∧
      (∀ p ∈ st'.residx, p ∈ st.residx ∨ p.2 < st'.lockResources.length) ∧
      (∀ k, (assocGet st.residx k).isSome → (assocGet st'.residx k).isSome) ∧
      (∀ tk ∈ tasks, (assocGet st'.residx tk.2.2.1).isSome) ∧
      (∀ i ∈ st'.lockRoot, i ∈ st.lockRoot ∨ i < st'.lockResources.length) ∧
      (∃ R, st'.refs = st.refs ++ R ∧ (∀ rf ∈ R, ∃ e ∈ E, e.1 = rf.1) ∧
        (∀ rf ∈ R, ∃ r, st'.lockResources.get? rf.2.2.1 = some r ∧
          r.inputs = some [] ∧ r.outputs = some [])) ∧
      (∀ i r, st'.lockResources.get? i = some r →
        st.lockResources.get? i = some r ∨
        (r.format = .package ∧
          ∀ m mh ms, w.fetchPackage r.url = some (m, mh, ms) →
            (∀ p ∈ m.inputs, ∃ t, (t, p.1, i, true) ∈ st'.refs) ∧
            (∀ p ∈ m.outputs, ∃ t, (t, p.1, i, false) ∈ st'.refs))) ∧
      (NoDeclaredHashes w → ∀ e ∈ E, e.2.2.hash = none) := by
  induction tasks with
  | nil =>
    intro st st' E h
    simp only [packagesIngest] at h
    rw [Except.ok.injEq, Prod.mk.injEq] at h
    obtain ⟨h1, h2⟩ := h
    subst h1; subst h2
    refine ⟨rfl, rfl, rfl, ⟨[], by simp, by simp⟩, fun p hp => .inl hp,
      fun k hk => hk, by simp, fun i hi => .inl hi,
      ⟨[], by simp, by simp, by simp⟩, fun i r hr => .inl hr, by simp⟩
  | cons task rest ih =>
    intro st st' E h
    obtain ⟨url2, root_url, key, isRoot⟩ := task
    cases hfetch : w.fetchPackage url2 with
    | none => simp [packagesIngest, hfetch] at h
    | some trip =>
      obtain ⟨m, mhash, msize⟩ := trip
      simp only [packagesIngest, hfetch] at h
      generalize hsta : ({ st with
        lockResources := st.lockResources ++
          [⟨url2, .package, ⟨mhash, msize⟩, some [], some []⟩],
        lockRoot := if isRoot = true then
            (if st.lockResources.length % 4294967296 ∈ st.lockRoot
             then st.lockRoot
             else st.lockRoot ++ [st.lockResources.length % 4294967296])
          else st.lockRoot,
        residx := assocSet st.residx key st.lockResources.length } : RState)
        = sta at h
      generalize hIn : enqueueRefs st.lockResources.length true root_url
        m.inputs sta = outIn at h
      generalize hOut : enqueueRefs st.lockResources.length false root_url
        m.outputs outIn.1 = outOut at h
      generalize hstb : ({ outOut.1 with
        store := if mhash ∈ outOut.1.store then outOut.1.store
          else outOut.1.store ++ [mhash] } : RState) = stb at h
      cases hrec : packagesIngest w rest stb with
      | error e =>
        rw [hrec] at h
        simp at h
      | ok pr =>
        obtain ⟨st2, resRest⟩ := pr
        rw [hrec] at h
        simp only [Except.ok.injEq, Prod.mk.injEq] at h
        obtain ⟨h1, h2⟩ := h
        subst h1
        obtain ⟨d1, d2, d3, ⟨L2, hL2, hL2mem⟩, d5, d6, d7, d8,
          ⟨R2, hR2, hR2mem, hR2pkg⟩, d10, d11⟩ := ih stb st2 resRest hrec
        obtain ⟨RIn, e1, e2, e3, e4, e5, e6, e7, e8, e9, e10, e11, e12⟩ :=
          enqueueRefs_spec st.lockResources.length true root_url m.inputs sta
        rw [hIn] at e1 e2 e3 e4 e5 e6 e7 e8 e11 e12
        obtain ⟨ROut, f1, f2, f3, f4, f5, f6, f7, f8, f9, f10, f11, f12⟩ :=
          enqueueRefs_spec st.lockResources.length false root_url m.outputs
            outIn.1
        rw [hOut] at f1 f2 f3 f4 f5 f6 f7 f8 f11 f12
        have gP : stb.packages = outOut.1.packages := by rw [← hstb]
        have gRq : stb.requested = outOut.1.requested := by rw [← hstb]
        have gA : stb.assigned = outOut.1.assigned := by rw [← hstb]
        have gL : stb.lockResources = outOut.1.lockResources := by rw [← hstb]
        have gRt : stb.lockRoot = outOut.1.lockRoot := by rw [← hstb]
        have gRx : stb.residx = outOut.1.residx := by rw [← hstb]
        have gRf : stb.refs = outOut.1.refs := by rw [← hstb]
        have sP : sta.packages = st.packages := by rw [← hsta]
        have sRq : sta.requested = st.requested := by rw [← hsta]
        have sA : sta.assigned = st.assigned := by rw [← hsta]
        have sL : sta.lockResources = st.lockResources ++
            [⟨url2, .package, ⟨mhash, msize⟩, some [], some []⟩] := by
          rw [← hsta]
        have sRt : sta.lockRoot = if isRoot = true then
            (if st.lockResources.length % 4294967296 ∈ st.lockRoot
             then st.lockRoot
             else st.lockRoot ++ [st.lockResources.length % 4294967296])
          else st.lockRoot := by rw [← hsta]
        have sRx : sta.residx = assocSet st.residx key
            st.lockResources.length := by rw [← hsta]
        have sRf : sta.refs = st.refs := by rw [← hsta]
        -- composed facts about stb in terms of st
        have bP : stb.packages = st.packages := by rw [gP, f1, e1, sP]
        have bRq : stb.requested = st.requested := by rw [gRq, f5, e5, sRq]
        have bA : stb.assigned = st.assigned := by rw [gA, f7, e7, sA]
        have bL : stb.lockResources = st.lockResources ++
            [⟨url2, .package, ⟨mhash, msize⟩, some [], some []⟩] := by
          rw [gL, f3, e3, sL]
        have bRx : stb.residx = assocSet st.residx key
            st.lockResources.length := by rw [gRx, f6, e6, sRx]
        have bRf : stb.refs = (st.refs ++ RIn) ++ ROut := by
          rw [gRf, f8, e8, sRf]
        have hlen : st.lockResources.length < st2.lockResources.length := by
          rw [hL2, bL]
          simp
        refine ⟨?_, ?_, ?_, ?_, ?_, ?_, ?_, ?_, ?_, ?_, ?_⟩
        · rw [d1, bP]
        · rw [d2, bRq]
        · rw [d3, bA]
        · refine ⟨⟨url2, .package, ⟨mhash, msize⟩, some [], some []⟩ :: L2,
            ?_, ?_⟩
          · rw [hL2, bL]
            simp
          · intro r hr
            rcases List.mem_cons.mp hr with hr | hr
            · rw [hr]
              exact ⟨rfl, rfl⟩
            · exact hL2mem r hr
        · intro p hp
          rcases d5 p hp with hp' | hp'
          · rw [bRx] at hp'
            rcases mem_assocSet _ _ _ _ hp' with hp'' | hp''
            · exact .inl hp''
            · right
              rw [hp'']
              exact hlen
          · exact .inr hp'
        · intro k hk
          refine d6 k ?_
          rw [bRx]
          exact assocGet_isSome_assocSet _ _ _ _ hk
        · intro tk htk
          rcases List.mem_cons.mp htk with htk | htk
          · subst htk
            refine d6 key ?_
            rw [bRx, assocGet_some_of_mem_set]
            rfl
          · exact d7 tk htk
        · intro i hi
          rcases d8 i hi with hi' | hi'
          · rw [gRt, f4, e4, sRt] at hi'
            by_cases hR : isRoot = true
            · rw [if_pos hR] at hi'
              by_cases hM : st.lockResources.length % 4294967296 ∈ st.lockRoot
              · rw [if_pos hM] at hi'
                exact .inl hi'
              · rw [if_neg hM] at hi'
                rcases List.mem_append.mp hi' with hi'' | hi''
                · exact .inl hi''
                · right
                  have : i = st.lockResources.length % 4294967296 := by
                    simpa using hi''
                  rw [this]
                  exact lt_of_le_of_lt (Nat.mod_le _ _) hlen
            · rw [if_neg hR] at hi'
              exact .inl hi'
          · exact .inr hi'
        · refine ⟨RIn ++ ROut ++ R2, ?_, ?_, ?_⟩
          · rw [hR2, bRf]
            simp [List.append_assoc]
          · intro rf hrf
            rw [← h2]
            rcases List.mem_append.mp hrf with hrf | hrf
            · rcases List.mem_append.mp hrf with hrf | hrf
              · obtain ⟨e', he', he2⟩ := e11 rf hrf
                exact ⟨e', by simp [he'], he2⟩
              · obtain ⟨e', he', he2⟩ := f11 rf hrf
                exact ⟨e', by simp [he'], he2⟩
            · obtain ⟨e', he', he2⟩ := hR2mem rf hrf
              exact ⟨e', by simp [he'], he2⟩
          · have hgetP : st2.lockResources.get? st.lockResources.length =
                some ⟨url2, .package, ⟨mhash, msize⟩, some [], some []⟩ := by
              rw [hL2, bL, List.get?_append (by simp),
                List.get?_concat_length]
            intro rf hrf
            rcases List.mem_append.mp hrf with hrf | hrf
            · rcases List.mem_append.mp hrf with hrf | hrf
              · obtain ⟨hidx, hdir⟩ := e9 rf hrf
                exact ⟨_, hidx ▸ hgetP, rfl, rfl⟩
              · obtain ⟨hidx, hdir⟩ := f9 rf hrf
                exact ⟨_, hidx ▸ hgetP, rfl, rfl⟩
            · exact hR2pkg rf hrf
        · intro i r hr
          rcases d10 i r hr with hr' | hr'
          · rw [bL] at hr'
            by_cases hi : i < st.lockResources.length
            · rw [List.get?_append hi] at hr'
              exact .inl hr'
            · right
              rw [List.get?_append_right (Nat.le_of_not_lt hi)] at hr'
              have hi0 : i - st.lockResources.length = 0 := by
                cases hd : i - st.lockResources.length with
                | zero => rfl
                | succ k =>
                  rw [hd] at hr'
                  simp at hr'
              rw [hi0] at hr'
              have hieq : i = st.lockResources.length := by omega
              injection hr' with hr''
              constructor
              · rw [← hr'']
              · intro m' mh' ms' hf'
                rw [← hr''] at hf'
                simp only at hf'
                rw [hfetch, Option.some.injEq, Prod.mk.injEq,
                  Prod.mk.injEq] at hf'
                obtain ⟨hm, _, _⟩ := hf'
                subst hm
                have hrefsub : ∀ x, x ∈ (st.refs ++ RIn) ++ ROut →
                    x ∈ st2.refs := by
                  intro x hx
                  rw [hR2, bRf]
                  exact List.mem_append_left _ hx
                constructor
                · intro p hp
                  obtain ⟨t, ht⟩ := e10 p hp
                  refine ⟨t, hieq ▸ ?_⟩
                  exact hrefsub _ (List.mem_append_left _
                    (List.mem_append_right _ ht))
                · intro p hp
                  obtain ⟨t, ht⟩ := f10 p hp
                  refine ⟨t, hieq ▸ ?_⟩
                  exact hrefsub _ (List.mem_append_right _ ht)
          · exact .inr hr'
        · intro hnd e he
          rw [← h2] at he
          rcases List.mem_append.mp he with he | he
          · rcases List.mem_append.mp he with he | he
            · obtain ⟨p, hp, hp2⟩ := e12 e he
              rw [hp2]
              exact ((hnd url2 m mhash msize hfetch).1 p hp)
            · obtain ⟨p, hp, hp2⟩ := f12 e he
              rw [hp2]
              exact ((hnd url2 m mhash msize hfetch).2 p hp)
          · exact d11 hnd e he

/-- What the resource spawn phase does: only `packages`, `requested` and
`assigned` change; `requested` grows by exactly the emitted task keys;
`packages` only grows; any new assignment's key is either requested or a
re-queued package's temp; and when no pending resource declares a hash,
every pending temp ends up assigned. -/
theorem resourcesSpawn_spec (resources : List (Nat × List Char × ResourceInfo))
    (st : RState) :
    (resourcesSpawn resources st).1.store = st.store ∧
    (resourcesSpawn resources st).1.lockResources = st.lockResources ∧
    (resourcesSpawn resources st).1.lockRoot = st.lockRoot ∧
    (resourcesSpawn resources st).1.residx = st.residx ∧
    (resourcesSpawn resources st).1.refs = st.refs ∧
    (resourcesSpawn resources st).1.requested =
      st.requested ++ ((resourcesSpawn resources st).2.map fun e => e.2.1) ∧
    (∃ P, (resourcesSpawn resources st).1.packages = st.packages ++ P) ∧
    (∀ t, (assocGet st.assigned t).isSome →
      (assocGet (resourcesSpawn resources st).1.assigned t).isSome) ∧
    (∀ t k, assocGet (resourcesSpawn resources st).1.assigned t = some k →
      assocGet st.assigned t = some k ∨
      k ∈ (resourcesSpawn resources st).1.requested ∨
      ∃ e ∈ (resourcesSpawn resources st).1.packages, e.2.1 = t) ∧
    ((∀ e ∈ resources, e.2.2.hash = none) →
      ∀ e ∈ resources,
        (assocGet (resourcesSpawn resources st).1.assigned e.1).isSome) ∧
    (∀ e ∈ (resourcesSpawn resources st).2,
      e.2.2.format ≠ ResourceFormat.package) := by
  induction resources generalizing st with
  | nil =>
    refine ⟨rfl, rfl, rfl, rfl, rfl, by simp [resourcesSpawn],
      ⟨[], by simp [resourcesSpawn]⟩,
      fun t h => h, fun t k h => .inl h, by simp, by simp [resourcesSpawn]⟩
  | cons e rest ih =>
    obtain ⟨temp, root_url, ri⟩ := e
    rw [resourcesSpawn.eq_def]
    simp only
    split
    · rename_i hskip
      obtain ⟨c1, c2, c3, c4, c5, c6, ⟨P, c7⟩, c8, c9, c10, c11⟩ := ih st
      refine ⟨c1, c2, c3, c4, c5, c6, ⟨P, c7⟩, c8, c9, ?_, c11⟩
      intro hnone
      exfalso
      have hhn := hnone (temp, root_url, ri) (List.mem_cons_self _ _)
      simp only at hhn
      rw [hhn] at hskip
      simp at hskip
    · generalize hurl : normalize_url
        (if (lc "http").isPrefixOf ri.uri = true then ri.uri
         else root_url ++ '/' :: ri.uri) = url2
      by_cases hreq : (url2, ri.format) ∈ st.requested
      · simp only [if_pos hreq]
        obtain ⟨c1, c2, c3, c4, c5, c6, ⟨P, c7⟩, c8, c9, c10, c11⟩ :=
          ih { st with assigned := assocSet st.assigned temp (url2, ri.format) }
        refine ⟨c1, c2, c3, c4, c5, c6, ⟨P, c7⟩, ?_, ?_, ?_, c11⟩
        · intro t h
          exact c8 t (assocGet_isSome_assocSet _ _ _ _ h)
        · intro t k h
          rcases c9 t k h with h' | h' | h'
          · rw [assocGet_assocSet] at h'
            by_cases ht : temp = t
            · rw [if_pos ht] at h'
              injection h' with h''
              right; left
              rw [c6]
              exact List.mem_append_left _ (h'' ▸ hreq)
            · rw [if_neg ht] at h'
              exact .inl h'
          · exact .inr (.inl h')
          · exact .inr (.inr h')
        · intro hnone e he
          rcases List.mem_cons.mp he with he | he
          · rw [he]
            refine c8 temp ?_
            show (assocGet (assocSet st.assigned temp (url2, ri.format))
              temp).isSome
            rw [assocGet_some_of_mem_set]
            rfl
          · exact c10 (fun x hx => hnone x (List.mem_cons_of_mem _ hx)) e he
      · simp only [if_neg hreq]
        by_cases hfmt : ri.format = .package
        · simp only [if_pos hfmt]
          obtain ⟨c1, c2, c3, c4, c5, c6, ⟨P, c7⟩, c8, c9, c10, c11⟩ :=
            ih { st with
              assigned := assocSet st.assigned temp (url2, ri.format)
              packages := st.packages ++ [(url2, temp, false)] }
          refine ⟨c1, c2, c3, c4, c5, c6,
            ⟨[(url2, temp, false)] ++ P, by rw [c7]; simp⟩, ?_, ?_, ?_, c11⟩
          · intro t h
            exact c8 t (assocGet_isSome_assocSet _ _ _ _ h)
          · intro t k h
            rcases c9 t k h with h' | h' | h'
            · rw [assocGet_assocSet] at h'
              by_cases ht : temp = t
              · rw [if_pos ht] at h'
                right; right
                refine ⟨(url2, temp, false), ?_, ht⟩
                rw [c7]
                simp
              · rw [if_neg ht] at h'
                exact .inl h'
            · exact .inr (.inl h')
            · exact .inr (.inr h')
          · intro hnone e he
            rcases List.mem_cons.mp he with he | he
            · rw [he]
              refine c8 temp ?_
              show (assocGet (assocSet st.assigned temp (url2, ri.format))
                temp).isSome
              rw [assocGet_some_of_mem_set]
              rfl
            · exact c10 (fun x hx => hnone x (List.mem_cons_of_mem _ hx)) e he
        · simp only [if_neg hfmt]
          obtain ⟨c1, c2, c3, c4, c5, c6, ⟨P, c7⟩, c8, c9, c10, c11⟩ :=
            ih { st with
              assigned := assocSet st.assigned temp (url2, ri.format)
              requested := st.requested ++ [(url2, ri.format)] }
          refine ⟨c1, c2, c3, c4, c5, ?_, ⟨P, c7⟩, ?_, ?_, ?_, ?_⟩
          · rw [c6]
            simp
          · intro t h
            exact c8 t (assocGet_isSome_assocSet _ _ _ _ h)
          · intro t k h
            rcases c9 t k h with h' | h' | h'
            · rw [assocGet_assocSet] at h'
              by_cases ht : temp = t
              · rw [if_pos ht] at h'
                injection h' with h''
                right; left
                rw [c6]
                refine List.mem_append_left _ ?_
                simp [h'']
              · rw [if_neg ht] at h'
                exact .inl h'
            · exact .inr (.inl h')
            · exact .inr (.inr h')
          · intro hnone e he
            rcases List.mem_cons.mp he with he | he
            · rw [he]
              refine c8 temp ?_
              show (assocGet (assocSet st.assigned temp (url2, ri.format))
                temp).isSome
              rw [assocGet_some_of_mem_set]
              rfl
            · exact c10 (fun x hx => hnone x (List.mem_cons_of_mem _ hx)) e he
          · intro e he
            rcases List.mem_cons.mp he with he | he
            · rw [he]
              exact hfmt
            · exact c11 e he

/-- What the resource ingest phase does on success: only `store`,
`residx` and `lockResources` change; new locks have no input/output maps;
every task key resolves through `residx` to an in-range index. -/
theorem resourcesIngest_spec (w : World)
    (tasks : List (List Char × (List Char × ResourceFormat) × ResourceInfo)) :
    ∀ (st st' : RState), resourcesIngest w tasks st = .ok st' →
      st'.packages = st.packages ∧
      st'.requested = st.requested ∧
      st'.assigned = st.assigned ∧
      st'.refs = st.refs ∧
      st'.lockRoot = st.lockRoot ∧
      (∃ L, st'.lockResources = st.lockResources ++ L ∧
        (∀ r ∈ L, r.inputs = none ∧ r.outputs = none) ∧
        ((∀ tk ∈ tasks, tk.2.2.format ≠ ResourceFormat.package) →
          ∀ r ∈ L, r.format ≠ ResourceFormat.package)) ∧
      (∀ p ∈ st'.residx, p ∈ st.residx ∨ p.2 < st'.lockResources.length) ∧
      (∀ k, (assocGet st.residx k).isSome → (assocGet st'.residx k).isSome) ∧
      (∀ tk ∈ tasks, (assocGet st'.residx tk.2.1).isSome) := by
  induction tasks with
  | nil =>
    intro st st' h
    simp only [resourcesIngest, Except.ok.injEq] at h
    subst h
    exact ⟨rfl, rfl, rfl, rfl, rfl, ⟨[], by simp, by simp, by simp⟩,
      fun p hp => .inl hp, fun k hk => hk, by simp⟩
  | cons task rest ih =>
    intro st st' h
    obtain ⟨url2, key, ri⟩ := task
    cases hfetch : w.fetchResource url2 ri.format with
    | none => simp [resourcesIngest, hfetch] at h
    | some pr =>
      obtain ⟨ehash, size⟩ := pr
      simp only [resourcesIngest, hfetch] at h
      generalize hst2 : ({ st with
        store := if ehash ∈ st.store then st.store else st.store ++ [ehash],
        lockResources := st.lockResources ++
          [⟨url2, ri.format, ⟨ehash, size⟩, none, none⟩],
        residx := assocSet st.residx key st.lockResources.length } : RState)
        = st2 at h
      have main : resourcesIngest w rest st2 = .ok st' →
          st'.packages = st.packages ∧
          st'.requested = st.requested ∧
          st'.assigned = st.assigned ∧
          st'.refs = st.refs ∧
          st'.lockRoot = st.lockRoot ∧
          (∃ L, st'.lockResources = st.lockResources ++ L ∧
            (∀ r ∈ L, r.inputs = none ∧ r.outputs = none) ∧
            ((∀ tk ∈ (url2, key, ri) :: rest,
                tk.2.2.format ≠ ResourceFormat.package) →
              ∀ r ∈ L, r.format ≠ ResourceFormat.package)) ∧
          (∀ p ∈ st'.residx, p ∈ st.residx ∨
            p.2 < st'.lockResources.length) ∧
          (∀ k, (assocGet st.residx k).isSome →
            (assocGet st'.residx k).isSome) ∧
          (∀ tk ∈ (url2, key, ri) :: rest,
            (assocGet st'.residx tk.2.1).isSome) := by
        intro hrec
        obtain ⟨d1, d2, d3, d4, d5, ⟨L2, hL2, hL2mem, hL2fmt⟩, d7, d8, d9⟩ :=
          ih st2 st' hrec
        have sP : st2.packages = st.packages := by rw [← hst2]
        have sRq : st2.requested = st.requested := by rw [← hst2]
        have sA : st2.assigned = st.assigned := by rw [← hst2]
        have sRf : st2.refs = st.refs := by rw [← hst2]
        have sRt : st2.lockRoot = st.lockRoot := by rw [← hst2]
        have sL : st2.lockResources = st.lockResources ++
            [⟨url2, ri.format, ⟨ehash, size⟩, none, none⟩] := by rw [← hst2]
        have sRx : st2.residx = assocSet st.residx key
            st.lockResources.length := by rw [← hst2]
        have hlen : st.lockResources.length < st'.lockResources.length := by
          rw [hL2, sL]
          simp
        refine ⟨by rw [d1, sP], by rw [d2, sRq], by rw [d3, sA],
          by rw [d4, sRf], by rw [d5, sRt], ?_, ?_, ?_, ?_⟩
        · refine ⟨⟨url2, ri.format, ⟨ehash, size⟩, none, none⟩ :: L2,
            ?_, ?_, ?_⟩
          · rw [hL2, sL]
            simp
          · intro r hr
            rcases List.mem_cons.mp hr with hr | hr
            · rw [hr]
              exact ⟨rfl, rfl⟩
            · exact hL2mem r hr
          · intro hfmts r hr
            rcases List.mem_cons.mp hr with hr | hr
            · rw [hr]
              exact hfmts (url2, key, ri) (List.mem_cons_self _ _)
            · exact hL2fmt
                (fun tk htk => hfmts tk (List.mem_cons_of_mem _ htk)) r hr
        · intro p hp
          rcases d7 p hp with hp' | hp'
          · rw [sRx] at hp'
            rcases mem_assocSet _ _ _ _ hp' with hp'' | hp''
            · exact .inl hp''
            · right
              rw [hp'']
              exact hlen
          · exact .inr hp'
        · intro k hk
          refine d8 k ?_
          rw [sRx]
          exact assocGet_isSome_assocSet _ _ _ _ hk
        · intro tk htk
          rcases List.mem_cons.mp htk with htk | htk
          · subst htk
            refine d8 key ?_
            rw [sRx, assocGet_some_of_mem_set]
            rfl
          · exact d9 tk htk
      split at h
      · rename_i expected heq
        split at h
        · simp at h
        · exact main h
      · exact main h

theorem get?_append_some {α : Type} (l l' : List α) (i : Nat) (a : α)
    (h : l.get? i = some a) : (l ++ l').get? i = some a := by
  have hi : i < l.length := by
    by_contra hno
    rw [List.get?_eq_none.mpr (Nat.le_of_not_lt hno)] at h
    exact absurd h (by simp)
  rw [List.get?_append hi]
  exact h

/-- One iteration of the outer loop preserves `BaseInv`, and preserves
`StInvN` when no manifest declares a hash. -/
theorem buildStep_spec (w : World) (st st' : RState)
    (h : buildStep w st = .ok st') :
    (BaseInv st → BaseInv st') ∧
    (NoDeclaredHashes w → StInvN w st → StInvN w st') := by
  simp only [buildStep] at h
  generalize hsp : packagesSpawn st.packages
    ({ st with packages := [] } : RState) = out at h
  cases hing : packagesIngest w out.2 out.1 with
  | error e =>
    rw [hing] at h
    simp at h
  | ok pr =>
    obtain ⟨st2, resources⟩ := pr
    simp only [hing] at h
    obtain ⟨p1, p2, p3, p4, p5, p6, p7, p8, p9, p10, p11⟩ :=
      packagesSpawn_spec st.packages { st with packages := [] }
    rw [hsp] at p1 p2 p3 p4 p5 p6 p7 p8 p9 p10 p11
    obtain ⟨i1, i2, i3, ⟨L2, hL2, hL2mem⟩, i5, i6, i7, i8,
      ⟨R, hR, hRtemps, hRpkg⟩, i10, i11⟩ :=
      packagesIngest_spec w out.2 out.1 st2 resources hing
    generalize hrs : resourcesSpawn resources st2 = out2 at h
    obtain ⟨s1, s2, s3, s4, s5, s6, ⟨P3, s7⟩, s8, s9, s10, s11⟩ :=
      resourcesSpawn_spec resources st2
    rw [hrs] at s1 s2 s3 s4 s5 s6 s7 s8 s9 s10 s11
    obtain ⟨g1, g2, g3, g4, g5, ⟨L4, hL4, hL4mem, hL4fmt⟩, g7, g8, g9⟩ :=
      resourcesIngest_spec w out2.2 out2.1 st' h
    have p1' : out.1.packages = ([] : List (List Char × Nat × Bool)) := p1
    have p3' : out.1.lockResources = st.lockResources := p3
    have p4' : out.1.lockRoot = st.lockRoot := p4
    have p5' : out.1.residx = st.residx := p5
    have p6' : out.1.refs = st.refs := p6
    have p8' : out.1.requested = st.requested ++
        (out.2.map fun task => task.2.2.1) := p8
    have A1 : st2.lockResources = st.lockResources ++ L2 := by
      rw [hL2, p3']
    have A2 : st'.lockResources = (st.lockResources ++ L2) ++ L4 := by
      rw [hL4, s2, A1]
    have A3 : st'.lockResources = st2.lockResources ++ L4 := by
      rw [hL4, s2]
    have hlen1 : st.lockResources.length ≤ st2.lockResources.length := by
      rw [A1]
      simp
    have hlen2 : st2.lockResources.length ≤ st'.lockResources.length := by
      rw [A3]
      simp
    have hreq' : st'.requested =
        (st.requested ++ (out.2.map fun task => task.2.2.1)) ++
        (out2.2.map fun e => e.2.1) := by
      rw [g2, s6, i2, p8']
    have hrefs' : st'.refs = st.refs ++ R := by
      rw [g4, s5, hR, p6']
    constructor
    · intro hb
      refine ⟨?_, ?_, ?_⟩
      · intro p hp
        rcases g7 p hp with hp' | hp'
        · rw [s4] at hp'
          rcases i5 p hp' with hp'' | hp''
          · rw [p5'] at hp''
            exact lt_of_lt_of_le (hb.residx_lt p hp'')
              (le_trans hlen1 hlen2)
          · exact lt_of_lt_of_le hp'' hlen2
        · exact hp'
      · intro i hi
        have hi' : i ∈ st2.lockRoot := by
          rw [← s3, ← g5]
          exact hi
        rcases i8 i hi' with hi'' | hi''
        · rw [p4'] at hi''
          exact lt_of_lt_of_le (hb.root_lt i hi'') (le_trans hlen1 hlen2)
        · exact lt_of_lt_of_le hi'' hlen2
      · intro r hr
        rw [A2] at hr
        rcases List.mem_append.mp hr with hr | hr
        · rcases List.mem_append.mp hr with hr | hr
          · exact hb.entries_empty r hr
          · obtain ⟨h1, h2⟩ := hL2mem r hr
            constructor
            · intro ins hins
              rw [h1] at hins
              injection hins with h3
              exact h3.symm
            · intro outs houts
              rw [h2] at houts
              injection houts with h3
              exact h3.symm
        · obtain ⟨h1, h2⟩ := hL4mem r hr
          constructor
          · intro ins hins
            rw [h1] at hins
            exact absurd hins (by simp)
          · intro outs houts
            rw [h2] at houts
            exact absurd houts (by simp)
    · intro hnd hs
      have hreqidx : ∀ k ∈ st'.requested, (assocGet st'.residx k).isSome := by
        intro k hk
        rw [hreq'] at hk
        have residxchain : (assocGet st2.residx k).isSome →
            (assocGet st'.residx k).isSome := by
          intro hsome
          refine g8 k ?_
          rw [s4]
          exact hsome
        rcases List.mem_append.mp hk with hk' | hk'
        · rcases List.mem_append.mp hk' with hk'' | hk''
          · refine residxchain (i6 k ?_)
            rw [p5']
            exact hs.requested_idx k hk''
          · obtain ⟨tk, htk, htkk⟩ := List.mem_map.mp hk''
            refine residxchain ?_
            rw [← htkk]
            exact i7 tk htk
        · obtain ⟨tk, htk, htkk⟩ := List.mem_map.mp hk'
          rw [← htkk]
          exact g9 tk htk
      have hassignedchain : ∀ t, (assocGet st.assigned t).isSome →
          (assocGet st'.assigned t).isSome := by
        intro t ht
        rw [g3]
        refine s8 t ?_
        rw [i3]
        exact p9 t ht
      refine ⟨?_, hreqidx, ?_, ?_, ?_⟩
      · intro rf hrf
        rw [hrefs'] at hrf
        rcases List.mem_append.mp hrf with hrf' | hrf'
        · obtain ⟨r, hget, hin, hout⟩ := hs.refs_pkg rf hrf'
          refine ⟨r, ?_, hin, hout⟩
          rw [A2]
          exact get?_append_some _ _ _ _ (get?_append_some _ _ _ _ hget)
        · obtain ⟨r, hget, hin, hout⟩ := hRpkg rf hrf'
          refine ⟨r, ?_, by rw [hin]; rfl, by rw [hout]; rfl⟩
          rw [A3]
          exact get?_append_some _ _ _ _ hget
      · intro t k hk
        rw [g3] at hk
        rcases s9 t k hk with hk1 | hk1 | hk1
        · rw [i3] at hk1
          rcases p10 t k hk1 with hk2 | hk2
          · have hk2' : assocGet st.assigned t = some k := hk2
            rcases hs.assigned_res t k hk2' with hk3 | ⟨e, he, het⟩
            · left
              refine g8 k ?_
              rw [s4]
              refine i6 k ?_
              rw [p5']
              exact hk3
            · obtain ⟨k2, hk2a, hk2r⟩ := p11 e he
              rw [het] at hk2a
              rw [hk1] at hk2a
              injection hk2a with hk2a'
              left
              refine hreqidx k ?_
              rw [hreq']
              refine List.mem_append_left _ ?_
              rw [← p8']
              rw [hk2a']
              exact hk2r
          · left
            refine hreqidx k ?_
            rw [hreq']
            refine List.mem_append_left _ ?_
            rw [← p8']
            exact hk2
        · left
          refine hreqidx k ?_
          rw [g2]
          exact hk1
        · right
          obtain ⟨e, he, het⟩ := hk1
          refine ⟨e, ?_, het⟩
          rw [g1]
          exact he
      · intro i r hget hfmt m mh ms hf
        rw [A3] at hget
        by_cases hi : i < st2.lockResources.length
        · rw [List.get?_append hi] at hget
          rcases i10 i r hget with hold | ⟨_, hprop⟩
          · rw [p3'] at hold
            obtain ⟨hin, hout⟩ := hs.names_refs i r hold hfmt m mh ms hf
            constructor
            · intro p hp
              obtain ⟨t, ht⟩ := hin p hp
              refine ⟨t, ?_⟩
              rw [hrefs']
              exact List.mem_append_left _ ht
            · intro p hp
              obtain ⟨t, ht⟩ := hout p hp
              refine ⟨t, ?_⟩
              rw [hrefs']
              exact List.mem_append_left _ ht
          · have hEq : st'.refs = st2.refs := by rw [g4, s5]
            rw [hEq]
            exact hprop m mh ms hf
        · rw [List.get?_append_right (Nat.le_of_not_lt hi)] at hget
          have hrL4 : r ∈ L4 := List.get?_mem hget
          exact absurd hfmt (hL4fmt s11 r hrL4)
      · intro rf hrf
        rw [hrefs'] at hrf
        rcases List.mem_append.mp hrf with hrf' | hrf'
        · rw [g3]
          refine s8 rf.1 ?_
          rw [i3]
          exact p9 rf.1 (hs.refs_assigned rf hrf')
        · obtain ⟨e, he, he1⟩ := hRtemps rf hrf'
          rw [g3, ← he1]
          exact s10 (i11 hnd) e he

/-- The outer resolver loop preserves both invariant parts and ends with
no pending packages. -/
theorem buildLoop_spec (w : World) (fuel : Nat) :
    ∀ st st', buildLoop w fuel st = .ok st' →
      (BaseInv st → BaseInv st') ∧
      (NoDeclaredHashes w → StInvN w st → StInvN w st') ∧
      st'.packages = [] := by
  induction fuel with
  | zero =>
    intro st st' h
    simp only [buildLoop] at h
    split at h
    · rename_i he
      injection h with h'
      subst h'
      exact ⟨id, fun _ hs => hs, List.isEmpty_iff.mp he⟩
    · simp at h
  | succ fuel ih =>
    intro st st' h
    simp only [buildLoop] at h
    split at h
    · rename_i he
      injection h with h'
      subst h'
      exact ⟨id, fun _ hs => hs, List.isEmpty_iff.mp he⟩
    · split at h
      · simp at h
      · rename_i st2 heq
        obtain ⟨b1, b2⟩ := buildStep_spec w st st2 heq
        obtain ⟨l1, l2, l3⟩ := ih st2 st' h
        exact ⟨fun hb => l1 (b1 hb), fun hnd hs => l2 hnd (b2 hnd hs), l3⟩

theorem patchRefs_cons (temp : Nat) (name : List Char) (idx : Nat)
    (isInput : Bool) (rest : List (Nat × List Char × Nat × Bool))
    (a : List (Nat × (List Char × ResourceFormat)))
    (ri : List ((List Char × ResourceFormat) × Nat))
    (res : List ResourceLock) :
    patchRefs ((temp, name, idx, isInput) :: rest) a ri res =
    patchRefs rest a ri (patchOne (temp, name, idx, isInput) a ri res) := rfl

theorem patchOne_length (rf : Nat × List Char × Nat × Bool)
    (a : List (Nat × (List Char × ResourceFormat)))
    (ri : List ((List Char × ResourceFormat) × Nat))
    (res : List ResourceLock) :
    (patchOne rf a ri res).length = res.length := by
  unfold patchOne
  split
  · rfl
  · split
    · rfl
    · split
      · rfl
      · split <;> simp

theorem patchRefs_length (refs : List (Nat × List Char × Nat × Bool))
    (a : List (Nat × (List Char × ResourceFormat)))
    (ri : List ((List Char × ResourceFormat) × Nat))
    (res : List ResourceLock) :
    (patchRefs refs a ri res).length = res.length := by
  induction refs generalizing res with
  | nil => rfl
  | cons rf rest ih =>
    obtain ⟨temp, name, idx, isInput⟩ := rf
    rw [patchRefs_cons, ih, patchOne_length]

theorem Evolves.rfl (r : ResourceLock) : Evolves r r :=
  ⟨by rfl, by rfl, id, id, fun ins nm h1 h2 => ⟨ins, h1, h2⟩,
    fun outs nm h1 h2 => ⟨outs, h1, h2⟩⟩

theorem Evolves.trans {r r' r'' : ResourceLock}
    (h1 : Evolves r r') (h2 : Evolves r' r'') : Evolves r r'' := by
  obtain ⟨u1, f1, i1, o1, ki1, ko1⟩ := h1
  obtain ⟨u2, f2, i2, o2, ki2, ko2⟩ := h2
  refine ⟨u2.trans u1, f2.trans f1, fun h => i2 (i1 h), fun h => o2 (o1 h),
    ?_, ?_⟩
  · intro ins nm hi hm
    obtain ⟨ins', hi', hm'⟩ := ki1 ins nm hi hm
    exact ki2 ins' nm hi' hm'
  · intro outs nm ho hm
    obtain ⟨outs', ho', hm'⟩ := ko1 outs nm ho hm
    exact ko2 outs' nm ho' hm'

theorem patchOne_evolve (rf : Nat × List Char × Nat × Bool)
    (a : List (Nat × (List Char × ResourceFormat)))
    (ri : List ((List Char × ResourceFormat) × Nat))
    (res : List ResourceLock) (j : Nat) (r : ResourceLock)
    (h : res.get? j = some r) :
    ∃ r', (patchOne rf a ri res).get? j = some r' ∧ Evolves r r' := by
  unfold patchOne
  split
  · exact ⟨r, h, Evolves.rfl r⟩
  · split
    · exact ⟨r, h, Evolves.rfl r⟩
    · split
      · exact ⟨r, h, Evolves.rfl r⟩
      · rename_i key i r0 hr0
        split
        · by_cases hj : rf.2.2.1 = j
          · subst hj
            rw [hr0] at h
            injection h with h'
            subst h'
            refine ⟨_, List.get?_set_eq_of_lt _ ?_, ?_, ?_, ?_, ?_, ?_, ?_⟩
            · have := List.get?_eq_some.mp hr0
              exact this.1
            · rfl
            · rfl
            · intro hin
              obtain ⟨ins0, hins0⟩ := Option.isSome_iff_exists.mp hin
              rw [hins0]
              rfl
            · exact id
            · intro ins nm hi hm
              rw [hi]
              exact ⟨_, by rfl, keys_assocSet_mono _ _ _ _ hm⟩
            · intro outs nm ho hm
              exact ⟨outs, ho, hm⟩
          · refine ⟨r, ?_, Evolves.rfl r⟩
            rw [List.get?_set_ne _ _ hj]
            exact h
        · by_cases hj : rf.2.2.1 = j
          · subst hj
            rw [hr0] at h
            injection h with h'
            subst h'
            refine ⟨_, List.get?_set_eq_of_lt _ ?_, ?_, ?_, ?_, ?_, ?_, ?_⟩
            · have := List.get?_eq_some.mp hr0
              exact this.1
            · rfl
            · rfl
            · exact id
            · intro hout
              obtain ⟨outs0, houts0⟩ := Option.isSome_iff_exists.mp hout
              rw [houts0]
              rfl
            · intro ins nm hi hm
              exact ⟨ins, hi, hm⟩
            · intro outs nm ho hm
              rw [ho]
              exact ⟨_, by rfl, keys_assocSet_mono _ _ _ _ hm⟩
          · refine ⟨r, ?_, Evolves.rfl r⟩
            rw [List.get?_set_ne _ _ hj]
            exact h

theorem patchRefs_evolve (refs : List (Nat × List Char × Nat × Bool))
    (a : List (Nat × (List Char × ResourceFormat)))
    (ri : List ((List Char × ResourceFormat) × Nat))
    (res : List ResourceLock) (j : Nat) (r : ResourceLock)
    (h : res.get? j = some r) :
    ∃ r', (patchRefs refs a ri res).get? j = some r' ∧ Evolves r r' := by
  induction refs generalizing res r with
  | nil => exact ⟨r, h, Evolves.rfl r⟩
  | cons rf rest ih =>
    obtain ⟨temp, name, idx, isInput⟩ := rf
    rw [patchRefs_cons]
    obtain ⟨r1, hr1, he1⟩ :=
      patchOne_evolve (temp, name, idx, isInput) a ri res j r h
    obtain ⟨r2, hr2, he2⟩ := ih _ r1 hr1
    exact ⟨r2, hr2, he1.trans he2⟩

/-- When a reference in the patch list resolves through `assigned` and
`residx` and its parent lock exists with both maps present, the name is
inserted into the parent's map and survives to the end of the loop. -/
theorem patchRefs_insert (refs : List (Nat × List Char × Nat × Bool))
    (a : List (Nat × (List Char × ResourceFormat)))
    (ri : List ((List Char × ResourceFormat) × Nat)) :
    ∀ (res : List ResourceLock) (temp : Nat) (name : List Char) (idx : Nat)
      (isInput : Bool), (temp, name, idx, isInput) ∈ refs →
      ∀ key i, assocGet a temp = some key → assocGet ri key = some i →
      (∃ r0, res.get? idx = some r0 ∧ r0.inputs.isSome ∧
        r0.outputs.isSome) →
      ∃ r', (patchRefs refs a ri res).get? idx = some r' ∧
        (isInput = true →
          ∃ ins', r'.inputs = some ins' ∧ name ∈ ins'.map Prod.fst) ∧
        (isInput = false →
          ∃ outs', r'.outputs = some outs' ∧ name ∈ outs'.map Prod.fst) := by
  induction refs with
  | nil =>
    intro res temp name idx isInput hmem
    simp at hmem
  | cons rf rest ih =>
    intro res temp name idx isInput hmem key i hkey hi hr0
    obtain ⟨r0, hget0, hin0, hout0⟩ := hr0
    rcases List.mem_cons.mp hmem with heq | hmem'
    · subst heq
      rw [patchRefs_cons]
      have hstep : patchOne (temp, name, idx, isInput) a ri res =
          (if isInput then
            res.set idx { r0 with
              inputs := r0.inputs.map fun ins =>
                assocSet ins name (i % 4294967296) }
          else
            res.set idx { r0 with
              outputs := r0.outputs.map fun outs =>
                assocSet outs name (i % 4294967296) }) := by
        unfold patchOne
        simp only [hkey, hi, hget0]
      have hlt : idx < res.length := (List.get?_eq_some.mp hget0).1
      cases isInput with
      | true =>
        rw [if_pos rfl] at hstep
        obtain ⟨ins0, hins0⟩ := Option.isSome_iff_exists.mp hin0
        have hgetx : (patchOne (temp, name, idx, true) a ri res).get? idx =
            some { r0 with
              inputs := some (assocSet ins0 name (i % 4294967296)) } := by
          rw [hstep]
          rw [List.get?_set_eq_of_lt _ hlt]
          rw [hins0]
          rfl
        obtain ⟨r', hr', he⟩ := patchRefs_evolve rest a ri _ idx _ hgetx
        refine ⟨r', hr', ?_, by simp⟩
        intro _
        refine he.2.2.2.2.1 _ name (by rfl) ?_
        exact keys_assocSet_self _ _ _
      | false =>
        rw [if_neg (by simp)] at hstep
        obtain ⟨outs0, houts0⟩ := Option.isSome_iff_exists.mp hout0
        have hgetx : (patchOne (temp, name, idx, false) a ri res).get? idx =
            some { r0 with
              outputs := some (assocSet outs0 name (i % 4294967296)) } := by
          rw [hstep]
          rw [List.get?_set_eq_of_lt _ hlt]
          rw [houts0]
          rfl
        obtain ⟨r', hr', he⟩ := patchRefs_evolve rest a ri _ idx _ hgetx
        refine ⟨r', hr', by simp, ?_⟩
        intro _
        refine he.2.2.2.2.2 _ name (by rfl) ?_
        exact keys_assocSet_self _ _ _
    · obtain ⟨temp0, name0, idx0, b0⟩ := rf
      rw [patchRefs_cons]
      obtain ⟨r1, hr1, he1⟩ :=
        patchOne_evolve (temp0, name0, idx0, b0) a ri res idx r0 hget0
      exact ih _ temp name idx isInput hmem' key i hkey hi
        ⟨r1, hr1, he1.2.2.1 hin0, he1.2.2.2.1 hout0⟩

theorem patchOne_mem_bound (rf : Nat × List Char × Nat × Bool)
    (a : List (Nat × (List Char × ResourceFormat)))
    (ri : List ((List Char × ResourceFormat) × Nat))
    (res : List ResourceLock) (N : Nat)
    (hri : ∀ k i, assocGet ri k = some i → i < N)
    (hres : ∀ r ∈ res,
      (∀ ins, r.inputs = some ins → ∀ p ∈ ins, p.2 < N) ∧
      (∀ outs, r.outputs = some outs → ∀ p ∈ outs, p.2 < N)) :
    ∀ r ∈ patchOne rf a ri res,
      (∀ ins, r.inputs = some ins → ∀ p ∈ ins, p.2 < N) ∧
      (∀ outs, r.outputs = some outs → ∀ p ∈ outs, p.2 < N) := by
  unfold patchOne
  rcases hk : assocGet a rf.1 with _ | key
  · simp only [hk]
    exact hres
  · simp only [hk]
    rcases hv : assocGet ri key with _ | i
    · simp only [hv]
      exact hres
    · simp only [hv]
      rcases hg : res.get? rf.2.2.1 with _ | r0
      · simp only [hg]
        exact hres
      · simp only [hg]
        have hiN : i % 4294967296 < N :=
          lt_of_le_of_lt (Nat.mod_le _ _) (hri key i hv)
        have hr0mem := hres r0 (List.get?_mem hg)
        split
        · intro r hr
          rcases List.mem_or_eq_of_mem_set hr with hr' | hr'
          · exact hres r hr'
          · subst hr'
            constructor
            · intro ins hins p hp
              simp only [Option.map_eq_some'] at hins
              obtain ⟨ins0, hins0, hins1⟩ := hins
              rw [← hins1] at hp
              rcases mem_assocSet _ _ _ _ hp with hp' | hp'
              · exact hr0mem.1 ins0 hins0 p hp'
              · rw [hp']
                exact hiN
            · intro outs houts p hp
              exact hr0mem.2 outs houts p hp
        · intro r hr
          rcases List.mem_or_eq_of_mem_set hr with hr' | hr'
          · exact hres r hr'
          · subst hr'
            constructor
            · intro ins hins p hp
              exact hr0mem.1 ins hins p hp
            · intro outs houts p hp
              simp only [Option.map_eq_some'] at houts
              obtain ⟨outs0, houts0, houts1⟩ := houts
              rw [← houts1] at hp
              rcases mem_assocSet _ _ _ _ hp with hp' | hp'
              · exact hr0mem.2 outs0 houts0 p hp'
              · rw [hp']
                exact hiN

/-- Every id inserted by the patching loop is bounded by `N` whenever the
index table is bounded by `N` and the initial maps are. -/
theorem patchRefs_ids (refs : List (Nat × List Char × Nat × Bool))
    (a : List (Nat × (List Char × ResourceFormat)))
    (ri : List ((List Char × ResourceFormat) × Nat)) (N : Nat)
    (hri : ∀ k i, assocGet ri k = some i → i < N) :
    ∀ res : List ResourceLock,
      (∀ r ∈ res,
        (∀ ins, r.inputs = some ins → ∀ p ∈ ins, p.2 < N) ∧
        (∀ outs, r.outputs = some outs → ∀ p ∈ outs, p.2 < N)) →
      ∀ r ∈ patchRefs refs a ri res,
        (∀ ins, r.inputs = some ins → ∀ p ∈ ins, p.2 < N) ∧
        (∀ outs, r.outputs = some outs → ∀ p ∈ outs, p.2 < N) := by
  induction refs with
  | nil => exact fun res hres => hres
  | cons rf rest ih =>
    intro res hres
    obtain ⟨temp, name, idx, isInput⟩ := rf
    rw [patchRefs_cons]
    exact ih _ (patchOne_mem_bound (temp, name, idx, isInput) a ri res N
      hri hres)

/-- Every lock file `build` produces has in-range root ids and in-range
ids in every input/output map. -/
theorem build_ids (w : World) (store0 : List Nat) (roots : List (List Char))
    (fuel : Nat) (lf : LockFile) (h : build w store0 roots fuel = .ok lf) :
    idsValid lf := by
  simp only [build] at h
  generalize hinit : ({
    packages := roots.enum.map fun p => (p.2, p.1, true)
    store := store0
    lockResources := []
    lockRoot := []
    requested := []
    residx := []
    assigned := []
    refs := []
    nextTemp := roots.length } : RState) = init at h
  cases hloop : buildLoop w fuel init with
  | error e =>
    rw [hloop] at h
    simp at h
  | ok st =>
    rw [hloop] at h
    simp only [Except.ok.injEq] at h
    subst h
    have hbinit : BaseInv init := by
      rw [← hinit]
      refine ⟨?_, ?_, ?_⟩
      · intro p hp
        simp at hp
      · intro i hi
        simp at hi
      · intro r hr
        simp at hr
    have hb : BaseInv st := (buildLoop_spec w fuel init st hloop).1 hbinit
    have hlen : (patchRefs st.refs st.assigned st.residx
        st.lockResources).length = st.lockResources.length :=
      patchRefs_length _ _ _ _
    constructor
    · intro i hi
      show i < (patchRefs st.refs st.assigned st.residx
        st.lockResources).length
      rw [hlen]
      exact hb.root_lt i hi
    · intro r hr
      have hri : ∀ k i, assocGet st.residx k = some i →
          i < st.lockResources.length := by
        intro k i hki
        exact hb.residx_lt (k, i) (assocGet_mem _ _ _ hki)
      have hres : ∀ r ∈ st.lockResources,
          (∀ ins, r.inputs = some ins → ∀ p ∈ ins,
            p.2 < st.lockResources.length) ∧
          (∀ outs, r.outputs = some outs → ∀ p ∈ outs,
            p.2 < st.lockResources.length) := by
        intro r hr
        constructor
        · intro ins hins p hp
          rw [(hb.entries_empty r hr).1 ins hins] at hp
          simp at hp
        · intro outs houts p hp
          rw [(hb.entries_empty r hr).2 outs houts] at hp
          simp at hp
      have := patchRefs_ids st.refs st.assigned st.residx
        st.lockResources.length hri st.lockResources hres r hr
      show (∀ ins, r.inputs = some ins → ∀ p ∈ ins,
          p.2 < (patchRefs st.refs st.assigned st.residx
            st.lockResources).length) ∧
        (∀ outs, r.outputs = some outs → ∀ p ∈ outs,
          p.2 < (patchRefs st.refs st.assigned st.residx
            st.lockResources).length)
      rw [hlen]
      exact this

/-- When no manifest declares a hash, every input/output name of every
locked package's manifest appears in that package's lock maps. -/
theorem build_names (w : World) (store0 : List Nat)
    (roots : List (List Char)) (fuel : Nat) (lf : LockFile)
    (hnd : NoDeclaredHashes w)
    (h : build w store0 roots fuel = .ok lf) : namesComplete w lf := by
  simp only [build] at h
  generalize hinit : ({
    packages := roots.enum.map fun p => (p.2, p.1, true)
    store := store0
    lockResources := []
    lockRoot := []
    requested := []
    residx := []
    assigned := []
    refs := []
    nextTemp := roots.length } : RState) = init at h
  cases hloop : buildLoop w fuel init with
  | error e =>
    rw [hloop] at h
    simp at h
  | ok st =>
    rw [hloop] at h
    simp only [Except.ok.injEq] at h
    subst h
    have hsinit : StInvN w init := by
      rw [← hinit]
      refine ⟨?_, ?_, ?_, ?_, ?_⟩
      · intro rf hrf
        simp at hrf
      · intro k hk
        simp at hk
      · intro t k hk
        simp [assocGet] at hk
      · intro i r hget
        simp at hget
      · intro rf hrf
        simp at hrf
    obtain ⟨_, hloopn, hemp⟩ := buildLoop_spec w fuel init st hloop
    have hs : StInvN w st := hloopn hnd hsinit
    simp only [namesComplete]
    intro r' hr' hfmt m mh ms hf
    obtain ⟨i, hi⟩ := List.mem_iff_get?.mp hr'
    have hilen : i < st.lockResources.length := by
      have h1 := (List.get?_eq_some.mp hi).1
      rw [patchRefs_length] at h1
      exact h1
    rcases hg : st.lockResources.get? i with _ | r
    · rw [List.get?_eq_none] at hg
      omega
    obtain ⟨r'', hr'', hev⟩ := patchRefs_evolve st.refs st.assigned
      st.residx st.lockResources i r hg
    have hr'eq : r'' = r' := by
      rw [hi] at hr''
      injection hr'' with h3
      exact h3.symm
    subst hr'eq
    have hfmt0 : r.format = .package := by
      rw [← hev.2.1]
      exact hfmt
    have hf0 : w.fetchPackage r.url = some (m, mh, ms) := by
      rw [← hev.1]
      exact hf
    obtain ⟨hinN, houtN⟩ := hs.names_refs i r hg hfmt0 m mh ms hf0
    constructor
    · intro p hp
      obtain ⟨t, ht⟩ := hinN p hp
      have hassigned := hs.refs_assigned _ ht
      obtain ⟨key, hkey⟩ := Option.isSome_iff_exists.mp hassigned
      rcases hs.assigned_res t key hkey with hidx | ⟨e, he, _⟩
      · obtain ⟨j, hj⟩ := Option.isSome_iff_exists.mp hidx
        obtain ⟨r0, hgetr0, hin0, hout0⟩ := hs.refs_pkg _ ht
        obtain ⟨rX, hrX, hinsX, _⟩ := patchRefs_insert st.refs st.assigned
          st.residx st.lockResources t p.1 i true ht key j hkey hj
          ⟨r0, hgetr0, hin0, hout0⟩
        have hrXeq : rX = r'' := by
          rw [hi] at hrX
          injection hrX with h4
          exact h4.symm
        subst hrXeq
        exact hinsX rfl
      · rw [hemp] at he
        simp at he
    · intro p hp
      obtain ⟨t, ht⟩ := houtN p hp
      have hassigned := hs.refs_assigned _ ht
      obtain ⟨key, hkey⟩ := Option.isSome_iff_exists.mp hassigned
      rcases hs.assigned_res t key hkey with hidx | ⟨e, he, _⟩
      · obtain ⟨j, hj⟩ := Option.isSome_iff_exists.mp hidx
        obtain ⟨r0, hgetr0, hin0, hout0⟩ := hs.refs_pkg _ ht
        obtain ⟨rX, hrX, _, houtsX⟩ := patchRefs_insert st.refs st.assigned
          st.residx st.lockResources t p.1 i false ht key j hkey hj
          ⟨r0, hgetr0, hin0, hout0⟩
        have hrXeq : rX = r'' := by
          rw [hi] at hrX
          injection hrX with h4
          exact h4.symm
        subst hrXeq
        exact houtsX rfl
      · rw [hemp] at he
        simp at he

/-! ## `ResourceStore::validate` (claim C3) -/

theorem validateLoop_iff (fs : FileSys) (store : ResourceStore)
    (l : List ResourceLock) :
    validateLoop fs store l = some true ↔
    ∀ r ∈ l, fs.entryExists (get_path store r.lock.hash) = true ∧
      fs.entryHash (get_path store r.lock.hash) = some r.lock.hash := by
  induction l with
  | nil => simp [validateLoop]
  | cons r rest ih =>
    simp only [validateLoop]
    rcases hex : fs.entryExists (get_path store r.lock.hash) with _ | _
    · simp [hex]
    · rcases hh : fs.entryHash (get_path store r.lock.hash) with _ | hh0
      · simp [hex, hh]
      · by_cases heq : r.lock.hash = hh0
        · subst heq
          simp [hex, hh, ih]
        · simp [hex, hh, heq]
          intro h'
          exact absurd h'.symm heq

/-! ## The self-deadlocking mutex lock (claim C7) -/

theorem sync_mutex_lock_loop_spins (k : Nat) (h : Int) (fuel : Nat) :
    sync_mutex_lock_loop k h fuel [(k, some h)] = .spinning := by
  induction fuel with
  | zero => rfl
  | succ fuel ih =>
    simp only [sync_mutex_lock_loop, sync_mutex_lock_iter, assocGet,
      if_pos rfl]
    exact ih

/-! ## Rejecting lock format versions (claim C9) -/

theorem lock_try_from_bad_format (t : TomlTable) (lockT : TomlTable)
    (fi : Int)
    (hl : (assocGet t (lc "lock")).bind Toml.as_table = some lockT)
    (hf : (assocGet lockT (lc "format")).bind Toml.as_integer = some fi)
    (hne : u16cast fi ≠ 1) :
    lock_try_from t =
      Panics.ret (.error (.invalidFormatVersion (u16cast fi))) := by
  unfold lock_try_from
  simp only [hl, hf, if_neg hne]
  rfl

/-! ## Claim theorems -/

/-- C1: (amended) every lock file produced by `PackagesResolver::build`
has in-range `inputs`/`outputs` ids and in-range root ids; and — provided
no fetched manifest declares an expected hash, so no download is skipped —
every input/output name declared by a locked package's manifest is present
in that package's lock maps.  (The original claim also asserted name
completeness when a declared hash already in the store makes the resolver
skip the download; `build_skip_drops_declared_name` refutes that.) -/
theorem build_lock_ids_valid_and_names_complete (w : World)
    (store0 : List Nat) (roots : List (List Char)) (fuel : Nat)
    (lf : LockFile) (h : build w store0 roots fuel = .ok lf) :
    idsValid lf ∧ (NoDeclaredHashes w → namesComplete w lf) :=
  ⟨build_ids w store0 roots fuel lf h,
   fun hnd => build_names w store0 roots fuel lf hnd h⟩

theorem build_lock_ids_valid_and_names_complete_witness :
    idsValid okLF ∧ (NoDeclaredHashes okWorld → namesComplete okWorld okLF) :=
  build_lock_ids_valid_and_names_complete okWorld [] [lc "r"] 4 okLF
    (by decide)

/-- Counterexample to the original C1: with input hash `99` already in the
store, `build` succeeds but the declared input name `x` is missing from
the package's lock inputs. -/
theorem build_skip_drops_declared_name :
    build skipWorld [99] [lc "r"] 4 = .ok skipLF ∧
    ¬ namesComplete skipWorld skipLF := by
  constructor
  · decide
  · intro hnc
    simp only [namesComplete] at hnc
    obtain ⟨hin, _⟩ := hnc
      ⟨lc "r/package.json", .package, ⟨5, 10⟩, some [], some []⟩
      (by decide) rfl
      ⟨⟨none, []⟩, ⟨0⟩,
        [(lc "x", ⟨lc "http://h/data.bin", .file, some 99⟩)], []⟩
      5 10 (by decide)
    obtain ⟨ins, hins, hmem⟩ := hin
      (lc "x", ⟨lc "http://h/data.bin", .file, some 99⟩) (by decide)
    have hins' : ins = [] := by
      have : (some [] : Option (List (List Char × Nat))) = some ins := hins
      injection this with h'
      exact h'.symm
    rw [hins'] at hmem
    simp at hmem

/-- C2: refuted — `normalize_url` is not idempotent: one `replace` pass
turns `"///"` into `"//"`, and a second pass turns that into `"/"`. -/
theorem normalize_url_not_idempotent :
    normalize_url (normalize_url (lc "///")) ≠ normalize_url (lc "///") := by
  decide

/-- C3: `ResourceStore::validate` returns `true` exactly when every
resource's store path exists and its recomputed entry hash equals the
recorded hash. -/
theorem validate_true_iff_entries_match (fs : FileSys)
    (store : ResourceStore) (lf : LockFile) :
    validate fs store lf = some true ↔
    ∀ r ∈ lf.resources,
      fs.entryExists (get_path store r.lock.hash) = true ∧
      fs.entryHash (get_path store r.lock.hash) = some r.lock.hash :=
  validateLoop_iff fs store lf.resources

/-- C4: (amended) encoding a manifest and decoding it back preserves all
fields, provided `minimal_version` is not 1 (the encoder drops a runtime
table it considers empty, and the decoder then defaults the version to 0),
the version fits in a `u32`, input/output names are unique, and declared
hashes fit in a `u64`.  `manifest_text_roundtrip_fails_at_version_one`
refutes the unconditional original claim. -/
theorem manifest_text_roundtrip (m : PackageManifest)
    (hmv : m.runtime.minimal_version ≠ 1)
    (hmvB : m.runtime.minimal_version < 4294967296)
    (hndI : (m.inputs.map Prod.fst).Nodup)
    (hndO : (m.outputs.map Prod.fst).Nodup)
    (hhI : ∀ p ∈ m.inputs, ∀ h0, p.2.hash = some h0 →
      h0 < 18446744073709551616)
    (hhO : ∀ p ∈ m.outputs, ∀ h0, p.2.hash = some h0 →
      h0 < 18446744073709551616) :
    manifest_try_from (manifest_to_toml m) = .ret (.ok m) :=
  manifest_roundtrip m hmv hmvB hndI hndO hhI hhO

theorem manifest_text_roundtrip_witness :
    manifest_try_from (manifest_to_toml
      ⟨⟨some (lc "d"), [lc "a"]⟩, ⟨2⟩,
        [(lc "x", ⟨lc "u", .file, some 5⟩)], []⟩) =
    .ret (.ok ⟨⟨some (lc "d"), [lc "a"]⟩, ⟨2⟩,
      [(lc "x", ⟨lc "u", .file, some 5⟩)], []⟩) :=
  manifest_text_roundtrip
    ⟨⟨some (lc "d"), [lc "a"]⟩, ⟨2⟩, [(lc "x", ⟨lc "u", .file, some 5⟩)], []⟩
    (by decide) (by decide) (by decide) (by decide) (by decide) (by decide)

/-- Counterexample to the original C4: a manifest requiring runtime
version 1 does not survive the round trip — it decodes with version 0. -/
theorem manifest_text_roundtrip_fails_at_version_one :
    manifest_try_from (manifest_to_toml mvOneManifest) ≠
    Panics.ret (.ok mvOneManifest) := by
  decide

/-- C5: encoding a lock file and decoding it back preserves all fields,
for root ids and map ids that fit in a `u32`, hashes and sizes that fit
in a `u64`, and unique input/output names. -/
theorem lock_text_roundtrip (lf : LockFile)
    (hroot : ∀ i ∈ lf.lock.root, i < 4294967296)
    (hres : ∀ r ∈ lf.resources,
      r.lock.hash < 18446744073709551616 ∧
      r.lock.size < 18446744073709551616 ∧
      (∀ ins, r.inputs = some ins →
        (ins.map Prod.fst).Nodup ∧ ∀ p ∈ ins, p.2 < 4294967296) ∧
      (∀ outs, r.outputs = some outs →
        (outs.map Prod.fst).Nodup ∧ ∀ p ∈ outs, p.2 < 4294967296)) :
    lock_try_from (lock_to_toml lf) = .ret (.ok lf) :=
  lock_roundtrip lf hroot hres

theorem lock_text_roundtrip_witness :
    lock_try_from (lock_to_toml
      ⟨⟨[0]⟩, [⟨lc "u", .file, ⟨1, 2⟩, some [(lc "a", 0)], none⟩]⟩) =
    .ret (.ok ⟨⟨[0]⟩, [⟨lc "u", .file, ⟨1, 2⟩, some [(lc "a", 0)], none⟩]⟩) :=
  lock_text_roundtrip
    ⟨⟨[0]⟩, [⟨lc "u", .file, ⟨1, 2⟩, some [(lc "a", 0)], none⟩]⟩
    (by decide) (by decide)

/-- C6: `ResourceFormat::from_uri` infers exactly what the specification
describes: the component after the last path separator decides between
archive extensions, the `.lua`/`.luau` suffixes and plain files, and empty
or path-less URIs default to `File`. -/
theorem from_uri_infers_spec_format (uri : List Char) :
    from_uri uri = specFormatOfUri uri :=
  from_uri_eq_specFormat uri

/-- C7: refuted — `sync.mutex.lock` is not reentrant: whenever the
handle's key is locked (by anyone, in particular by the calling handle
itself), the polling loop spins without ever returning, for any number of
poll iterations. -/
theorem sync_mutex_lock_held_spins (st : MutexState) (handle : Int)
    (key : Nat) (owner : Int) (fuel : Nat)
    (hc : assocGet st.consumers handle = some key)
    (hl : assocGet st.locks key = some (some owner)) :
    sync_mutex_lock st handle fuel = .spinning := by
  unfold sync_mutex_lock
  rw [hc]
  induction fuel with
  | zero => rfl
  | succ fuel ih =>
    simp only [sync_mutex_lock_loop, sync_mutex_lock_iter, hl]
    exact ih

theorem sync_mutex_lock_held_spins_witness :
    sync_mutex_lock ⟨[(5, 1)], [(1, some 5)]⟩ 5 1000 = .spinning :=
  sync_mutex_lock_held_spins ⟨[(5, 1)], [(1, some 5)]⟩ 5 1 5 1000
    (by decide) (by decide)

/-- C8: `path.normalize` boundary behaviour: `"/"` normalizes to `"/"`,
the empty path to nothing, and `"a/../"` to nothing. -/
theorem path_normalize_boundary_behaviour :
    path_normalize (lc "/") = some (lc "/") ∧
    path_normalize (lc "") = none ∧
    path_normalize (lc "a/../") = none := by
  decide

/-- C9: (amended) decoding a lock document whose `lock.format` integer
truncates (as a `u16`) to anything other than 1 fails with
`InvalidFormatVersion`.  The original claim said this for every integer
other than 1; `lock_decode_accepts_format_65537` refutes that, because
`65537 as u16 == 1`. -/
theorem lock_decode_rejects_other_formats (t : TomlTable)
    (lockT : TomlTable) (fi : Int)
    (hl : (assocGet t (lc "lock")).bind Toml.as_table = some lockT)
    (hf : (assocGet lockT (lc "format")).bind Toml.as_integer = some fi)
    (hne : u16cast fi ≠ 1) :
    lock_try_from t =
      Panics.ret (.error (.invalidFormatVersion (u16cast fi))) :=
  lock_try_from_bad_format t lockT fi hl hf hne

theorem lock_decode_rejects_other_formats_witness :
    lock_try_from fmt3Doc =
      Panics.ret (.error (.invalidFormatVersion (u16cast 3))) :=
  lock_decode_rejects_other_formats fmt3Doc
    [(lc "format", Toml.int 3), (lc "root", Toml.array [])] 3
    rfl rfl (by decide)

/-- Counterexample to the original C9: a document with
`lock.format = 65537` decodes successfully because the decoder truncates
the integer with `as u16` before comparing it to 1. -/
theorem lock_decode_accepts_format_65537 :
    lock_try_from fmt65537Doc = Panics.ret (.ok ⟨⟨[]⟩, []⟩) := by
  decide

/-- C10: refuted — `Hash::from_base32` is not total: the alphabet-valid
two-character string `"aa"` decodes to a single byte, and slicing
`hash[..8]` panics instead of returning `None`.  (For well-formed
encodings the round trip does hold, see `hash_base32_roundtrip`.) -/
theorem from_base32_panics_on_short_string :
    from_base32 (lc "aa") = Panics.panic := by
  decide

end Wineyard
